import Mathlib

/-!
Verification development for the behavior-tree XML structural diff tool
(`bt_tree_parser.py` and `bt_tree_comparator.py`).

The data model and the operations are shallowly embedded from the Python
source: Python dicts become association lists (`List (String × String)` /
`List (String × BTNode)`), Python sets become duplicate-free lists in a
fixed enumeration order (the iteration order of a Python set is
unspecified, and the specification declares the ordering of the change
list non-normative), and the mutable `self.changes` accumulator becomes
explicit list construction.
-/

/-- The `NodeType` enum of `bt_tree_parser.py`. -/
inductive NodeType where
  | control
  | action
  | condition
  | decorator
  | subtree
deriving DecidableEq, Repr

/-- The `.value` payload of each `NodeType` member. -/
def NodeType.value : NodeType → String
  | .control => "control"
  | .action => "action"
  | .condition => "condition"
  | .decorator => "decorator"
  | .subtree => "subtree"

/-- The `BTNode` dataclass of `bt_tree_parser.py`.  The `parent`
back-reference is omitted: the comparator never reads it, and the parser
consults only `parent.path`, which is passed explicitly to the embedded
construction functions. -/
inductive BTNode where
  | mk (id : String) (node_type : NodeType) (tag : String)
       (attributes : List (String × String)) (children : List BTNode)
       (depth : Nat) (path : String)

def BTNode.id : BTNode → String
  | .mk i _ _ _ _ _ _ => i

def BTNode.node_type : BTNode → NodeType
  | .mk _ k _ _ _ _ _ => k

def BTNode.tag : BTNode → String
  | .mk _ _ t _ _ _ _ => t

def BTNode.attributes : BTNode → List (String × String)
  | .mk _ _ _ a _ _ _ => a

def BTNode.children : BTNode → List BTNode
  | .mk _ _ _ _ cs _ _ => cs

def BTNode.depth : BTNode → Nat
  | .mk _ _ _ _ _ d _ => d

def BTNode.path : BTNode → String
  | .mk _ _ _ _ _ _ p => p

/-- Python `d.get(k, dflt)` on a string-valued dict. -/
def dictGet (d : List (String × String)) (k : String) (dflt : String) : String :=
  match d.find? (fun kv => kv.1 == k) with
  | some kv => kv.2
  | none => dflt

/-- Python `k in d` (key containment) on a dict. -/
def dictHas (d : List (String × String)) (k : String) : Bool :=
  (d.map Prod.fst).contains k

/-- Accumulator pass keeping the first occurrence of every element; used
to model iteration over a Python set or over the keys of a dict built by
repeated `append`-style insertion. -/
def dedupAux : List String → List String → List String
  | [], _ => []
  | x :: xs, seen => if x ∈ seen then dedupAux xs seen else x :: dedupAux xs (x :: seen)

/-- Model of `set(xs) | set(ys)`: each element once, first occurrences
first.  Python's set iteration order is unspecified; the comparator's
specification declares list ordering non-normative, so a fixed order is a
faithful model. -/
def pySetUnion (xs ys : List String) : List String :=
  dedupAux (xs ++ ys) []

/-- Lookup in a path-to-node map (`node_map.get(path)`). -/
def lookupNode (m : List (String × BTNode)) (p : String) : Option BTNode :=
  (m.find? (fun kv => kv.1 == p)).map Prod.snd

/-- The `ChangeType` enum of `bt_tree_comparator.py`. -/
inductive ChangeType where
  | added
  | removed
  | moved
  | modified
  | unchanged
deriving DecidableEq, Repr

/-- The `NodeChange` dataclass.  Python's `attribute_changes` defaults to
`None`; changes that never populate it are modelled with the empty
list. -/
structure NodeChange where
  change_type : ChangeType
  old_node : Option BTNode
  new_node : Option BTNode
  old_path : Option String
  new_path : Option String
  attribute_changes : List (String × (String × String))

mutual

/-- `BTTreeComparator._create_node_map` / `_traverse_and_map`: pre-order
flattening of a tree into a path-to-node association list. -/
def flattenNode : BTNode → List (String × BTNode)
  | .mk i k t a cs d p => (p, .mk i k t a cs d p) :: flattenList cs

/-- Flattening of a list of subtrees, in order. -/
def flattenList : List BTNode → List (String × BTNode)
  | [] => []
  | c :: cs => flattenNode c ++ flattenList cs

end

/-- The `changes` dict of `_compare_nodes`: renamings of `tag` and
`node_type`, when they differ. -/
def basicChanges (old_node new_node : BTNode) : List (String × (String × String)) :=
  (if old_node.tag ≠ new_node.tag then [("tag", (old_node.tag, new_node.tag))] else []) ++
  (if old_node.node_type ≠ new_node.node_type then
     [("node_type", (old_node.node_type.value, new_node.node_type.value))] else [])

/-- The `attr_changes` dict of `_compare_nodes`: for every attribute name
in the union of the two key sets, the `(old, new)` value pair whenever the
two values (absent defaulting to the empty string) differ. -/
def attrChanges (old_node new_node : BTNode) : List (String × (String × String)) :=
  (pySetUnion (old_node.attributes.map Prod.fst) (new_node.attributes.map Prod.fst)).filterMap
    (fun attr =>
      let old_val := dictGet old_node.attributes attr ""
      let new_val := dictGet new_node.attributes attr ""
      if old_val ≠ new_val then some (attr, (old_val, new_val)) else none)

/-- `BTTreeComparator._compare_nodes`: compare two nodes sharing a path,
producing the single Modified or Unchanged change the Python method
appends to `self.changes`. -/
def compare_nodes (old_node new_node : BTNode) (path : String) : NodeChange :=
  if basicChanges old_node new_node ≠ [] ∨ attrChanges old_node new_node ≠ [] then
    ⟨ChangeType.modified, some old_node, some new_node, some path, some path,
      attrChanges old_node new_node⟩
  else
    ⟨ChangeType.unchanged, some old_node, some new_node, some path, some path, []⟩

/-- `BTTreeComparator._node_signature`. -/
def node_signature (node : BTNode) : String :=
  let key_attrs := ["ID", "name", "sub_tree_name"]
  let attr_parts := key_attrs.filterMap (fun attr =>
    if dictHas node.attributes attr then
      some (attr ++ "=" ++ dictGet node.attributes attr "")
    else none)
  node.tag ++ "(" ++ node.node_type.value ++ "):" ++ String.intercalate ":" attr_parts

/-- The signature group of `sig` inside one tree's node map: the list of
`(path, node)` pairs built by `_detect_moved_nodes` for that
signature, in map iteration order. -/
def sigInstances (nodes : List (String × BTNode)) (sig : String) : List (String × BTNode) :=
  nodes.filter (fun pn => node_signature pn.2 == sig)

/-- The one-to-one move resolved for a signature, if any: `some` exactly
when the signature occurs in the new tree, both groups are singletons and
the two paths differ (the body of the `for sig in old_signatures` loop of
`_detect_moved_nodes`; `sig in new_signatures` is equivalent to the new
group being nonempty). -/
def moveOf (old_nodes new_nodes : List (String × BTNode)) (sig : String) :
    Option (String × BTNode × String × BTNode) :=
  match sigInstances old_nodes sig, sigInstances new_nodes sig with
  | [(old_path, old_node)], [(new_path, new_node)] =>
    if old_path ≠ new_path then some (old_path, old_node, new_path, new_node) else none
  | _, _ => none

/-- The list-comprehension filter of `_detect_moved_nodes`: keep a change
unless it is the Removed entry at the moved node's old path or the Added
entry at its new path. -/
def keepAfterMove (old_path new_path : String) (c : NodeChange) : Bool :=
  !((decide (c.change_type = ChangeType.removed) && c.old_path == some old_path) ||
    (decide (c.change_type = ChangeType.added) && c.new_path == some new_path))

/-- The MOVED entry appended by `_detect_moved_nodes`. -/
def mkMoved (old_path : String) (old_node : BTNode) (new_path : String) (new_node : BTNode) :
    NodeChange :=
  ⟨ChangeType.moved, some old_node, some new_node, some old_path, some new_path, []⟩

/-- One iteration of the `for sig in old_signatures` loop of
`_detect_moved_nodes`. -/
def detectStep (old_nodes new_nodes : List (String × BTNode)) (changes : List NodeChange)
    (sig : String) : List NodeChange :=
  match moveOf old_nodes new_nodes sig with
  | some (old_path, old_node, new_path, new_node) =>
    (changes.filter (keepAfterMove old_path new_path)) ++ [mkMoved old_path old_node new_path new_node]
  | none => changes

/-- The distinct signatures of the old tree in first-occurrence order:
the iteration order of the Python dict `old_signatures`. -/
def oldSigKeys (old_nodes : List (String × BTNode)) : List String :=
  dedupAux (old_nodes.map (fun pn => node_signature pn.2)) []

/-- `BTTreeComparator._detect_moved_nodes`, as a transformation of the
change list accumulated so far. -/
def detect_moved_nodes (old_nodes new_nodes : List (String × BTNode))
    (changes : List NodeChange) : List NodeChange :=
  (oldSigKeys old_nodes).foldl (detectStep old_nodes new_nodes) changes

/-- The presence classification pass of `compare_trees` at one path. -/
def classifyPath (old_nodes new_nodes : List (String × BTNode)) (path : String) :
    List NodeChange :=
  match lookupNode old_nodes path, lookupNode new_nodes path with
  | some old_node, some new_node => [compare_nodes old_node new_node path]
  | some old_node, none =>
    [⟨ChangeType.removed, some old_node, none, some path, none, []⟩]
  | none, some new_node =>
    [⟨ChangeType.added, none, some new_node, none, some path, []⟩]
  | none, none => []

/-- `BTTreeComparator.compare_trees`. -/
def compare_trees (old_root new_root : BTNode) : List NodeChange :=
  let old_nodes := flattenNode old_root
  let new_nodes := flattenNode new_root
  let all_paths := pySetUnion (old_nodes.map Prod.fst) (new_nodes.map Prod.fst)
  let changes := all_paths.flatMap (classifyPath old_nodes new_nodes)
  detect_moved_nodes old_nodes new_nodes changes

/-- `BTTreeComparator.compare_trees` together with the comparator's
instance state: `prior` is the content of `self.changes` left over from
earlier invocations, which the method discards by `self.changes = []`
before doing any work. -/
def compare_trees_with_state (prior : List NodeChange) (old_root new_root : BTNode) :
    List NodeChange :=
  -- `self.changes = []`: the leftover state is dropped unread.
  compare_trees old_root new_root

/-- An `xml.etree.ElementTree.Element`, restricted to the data the parser
reads. -/
inductive XMLElement where
  | mk (tag : String) (attrib : List (String × String)) (children : List XMLElement)

def XMLElement.tag : XMLElement → String
  | .mk t _ _ => t

def XMLElement.attrib : XMLElement → List (String × String)
  | .mk _ a _ => a

def XMLElement.children : XMLElement → List XMLElement
  | .mk _ _ cs => cs

/-- Python `element.get(key, default)`. -/
def XMLElement.get (e : XMLElement) (k dflt : String) : String :=
  dictGet e.attrib k dflt

/-- `BTTreeParser.CONTROL_NODES`. -/
def CONTROL_NODES : List String :=
  ["Sequence", "Selector", "Fallback", "Parallel", "ReactiveSequence",
   "ReactiveFallback", "IfThenElse", "WhileDoElse", "ForEach",
   "Switch", "StatefulActionNode", "Control", "MultiRobotControl"]

/-- `BTTreeParser.DECORATOR_NODES`. -/
def DECORATOR_NODES : List String :=
  ["Inverter", "ForceSuccess", "ForceFailure", "Repeat", "Retry",
   "Timeout", "Delay", "BlackboardPrecondition", "KeepRunningUntilFailure",
   "Decorator", "ReportFailure", "RetryUntilSuccessful",
   "BlackboardPostCheckString", "BlackboardPostCheckInt", "BlackboardPostCheckBool"]

/-- Python `s.startswith(pre)`, computed over the character lists. -/
def strStartsWith (s pre : String) : Bool :=
  pre.data.isPrefixOf s.data

/-- `BTTreeParser._classify_node`. -/
def classify_node (tag : String) : NodeType :=
  if tag ∈ CONTROL_NODES then NodeType.control
  else if tag ∈ DECORATOR_NODES then NodeType.decorator
  else if tag = "SubTree" then NodeType.subtree
  else if tag = "Condition" then NodeType.condition
  else if strStartsWith tag "Action" ∨ tag = "AlwaysSuccess" ∨ tag = "AlwaysFailure" then
    NodeType.action
  else NodeType.action

/-- `BTTreeParser._generate_path`.  Only `parent.path` is consulted on the
parent node, so the parent is passed as an optional path.  A standard
`xml.etree.ElementTree.Element` has no `getparent` attribute (that method
exists only on lxml elements), so `hasattr(element, 'getparent')` is
False, `parent_element` is `None`, the sibling loop never executes and
`sibling_index` is always 0. -/
def generate_path (element : XMLElement) (parentPath : Option String) : String :=
  match parentPath with
  | none => element.tag
  | some pp =>
    let sibling_index : Nat := 0
    let node_id := element.get "ID" ""
    if node_id ≠ "" then
      pp ++ "/" ++ element.tag ++ "[@ID='" ++ node_id ++ "']"
    else
      pp ++ "/" ++ element.tag ++ "[" ++ toString sibling_index ++ "]"

mutual

/-- `BTTreeParser._parse_element`.  The Python method constructs the node
first and then appends parsed children to it; here the children are
computed first, against the already-known path of the node under
construction. -/
def parse_element : XMLElement → Option String → Nat → BTNode
  | .mk tag attrib children, parentPath, depth =>
    let node_type := classify_node tag
    let path := generate_path (.mk tag attrib children) parentPath
    BTNode.mk (XMLElement.get (.mk tag attrib children) "ID" tag) node_type tag attrib
      (parse_children children path (depth + 1)) depth path

/-- The child-parsing loop of `_parse_element`: children tagged
`BehaviorTree` are skipped. -/
def parse_children : List XMLElement → String → Nat → List BTNode
  | [], _, _ => []
  | c :: cs, pp, d =>
    (if c.tag = "BehaviorTree" then [] else [parse_element c (some pp) d]) ++
      parse_children cs pp d

end

/-- Does a change mention the path `p` (as its old or its new path)? -/
def mentionsPath (c : NodeChange) (p : String) : Bool :=
  (c.old_path == some p) || (c.new_path == some p)

/-- The condition under which `_compare_nodes` reports a modification. -/
def nodesDiffer (o n : BTNode) : Prop :=
  o.tag ≠ n.tag ∨ o.node_type ≠ n.node_type ∨
    ∃ a ∈ pySetUnion (o.attributes.map Prod.fst) (n.attributes.map Prod.fst),
      dictGet o.attributes a "" ≠ dictGet n.attributes a ""

/-- Whether a change survives the filtering performed when the signature
`sig` is processed by the move-detection loop. -/
def stepKeep (oN nN : List (String × BTNode)) (sig : String) (c : NodeChange) : Bool :=
  match moveOf oN nN sig with
  | some m => keepAfterMove m.1 m.2.2.1 c
  | none => true

/-- Whether a change survives every filtering step of the move-detection
loop over the given signatures. -/
def survivesAll (oN nN : List (String × BTNode)) (sigs : List String) (c : NodeChange) : Bool :=
  sigs.all (fun s => stepKeep oN nN s c)

/-- All MOVED entries appended by the move-detection loop over the given
signatures, in order. -/
def movedChangesOf (oN nN : List (String × BTNode)) (sigs : List String) : List NodeChange :=
  sigs.filterMap (fun s => (moveOf oN nN s).map (fun m => mkMoved m.1 m.2.1 m.2.2.1 m.2.2.2))

/-- The Unchanged change recorded for a node compared to itself. -/
def unchangedChange (n : BTNode) (p : String) : NodeChange :=
  ⟨ChangeType.unchanged, some n, some n, some p, some p, []⟩

/-- Scenario-A style sample input: `<Sequence><Action ID="A"/></Sequence>`. -/
def sampleXMLA : XMLElement := .mk "Sequence" [] [.mk "Action" [("ID", "A")] []]

/-- The parsed tree of `sampleXMLA`. -/
def sampleTreeA : BTNode := parse_element sampleXMLA none 0

/-- Childless root with tag `A`, as parsed. -/
def leafA : BTNode := parse_element (.mk "A" [] []) none 0

/-- Childless root with tag `B`, as parsed. -/
def leafB : BTNode := parse_element (.mk "B" [] []) none 0

/-- Scenario-C style old node: attribute `x` present with empty value and
`y` set to 1. -/
def cexC4Old : BTNode := BTNode.mk "A" .action "Act" [("x", ""), ("y", "1")] [] 0 "Act"

/-- Scenario-C style new node: attribute `x` absent and `y` set to 2. -/
def cexC4New : BTNode := BTNode.mk "A" .action "Act" [("y", "2")] [] 0 "Act"

/-- Scenario-D old tree: `Sequence > Fallback > Action[ID=A]`, parsed. -/
def treeDOld : BTNode :=
  parse_element (.mk "Sequence" [] [.mk "Fallback" [] [.mk "Action" [("ID", "A")] []]]) none 0

/-- Scenario-D new tree: `Sequence > Action[ID=A]`, parsed. -/
def treeDNew : BTNode :=
  parse_element (.mk "Sequence" [] [.mk "Action" [("ID", "A")] []]) none 0

/-- The Scenario-D action node at its old position. -/
def movedActionOld : BTNode :=
  BTNode.mk "A" .action "Action" [("ID", "A")] [] 2 "Sequence/Fallback[0]/Action[@ID='A']"

/-- The Scenario-D action node at its new position. -/
def movedActionNew : BTNode :=
  BTNode.mk "A" .action "Action" [("ID", "A")] [] 1 "Sequence/Action[@ID='A']"

/-- Old tree of the partition counterexample: `Sequence` with one child
`Action[ID=A, name=foo]`. -/
def treeC3Old : BTNode :=
  parse_element (.mk "Sequence" [] [.mk "Action" [("ID", "A"), ("name", "foo")] []]) none 0

/-- New tree of the partition counterexample: `Sequence` with children
`Action[ID=A, name=bar]` and `Fallback > Action[ID=A, name=foo]`. -/
def treeC3New : BTNode :=
  parse_element (.mk "Sequence" []
    [.mk "Action" [("ID", "A"), ("name", "bar")] [],
     .mk "Fallback" [] [.mk "Action" [("ID", "A"), ("name", "foo")] []]]) none 0

/-- Shape of a path produced by `generate_path` for a node of tag `t`:
either the root form, the `@ID` form, or the sibling-index form (always
index 0 under the parser in use).  The side conditions record that the
tag contains no `/` (true of every XML tag name) and that the ID value is
nonempty and — the condition of the amended claim — free of the
apostrophe that delimits the `@ID` form. -/
def PathTag (p t : String) : Prop :=
  ('/' ∉ t.data ∧ p = t) ∨
  (∃ pp v : String, v ≠ "" ∧ '\'' ∉ v.data ∧ '/' ∉ t.data ∧
    p = pp ++ "/" ++ t ++ "[@ID='" ++ v ++ "']") ∨
  (∃ pp : String, '/' ∉ t.data ∧ p = pp ++ "/" ++ t ++ "[0]")

/-- Old tree of the path-collision counterexample:
`R > SubTree[ID=a] > Sequence[ID=c]`, parsed. -/
def treeC7Old : BTNode :=
  parse_element (.mk "R" []
    [.mk "SubTree" [("ID", "a")] [.mk "Sequence" [("ID", "c")] []]]) none 0

/-- New tree of the path-collision counterexample: `R` with a single
`SubTree` child whose ID value embeds path syntax, steering its generated
path onto the old grandchild's path. -/
def treeC7New : BTNode :=
  parse_element (.mk "R" [] [.mk "SubTree" [("ID", "a']/Sequence[@ID='c")] []]) none 0

/-- The Fallback node of the Scenario-D old tree. -/
def fbNodeD : BTNode :=
  BTNode.mk "Fallback" .control "Fallback" [] [movedActionOld] 1 "Sequence/Fallback[0]"

/-- The root of the Scenario-D old tree, as an explicit node. -/
def rootNodeDOld : BTNode := BTNode.mk "Sequence" .control "Sequence" [] [fbNodeD] 0 "Sequence"

/-- The root of the Scenario-D new tree, as an explicit node. -/
def rootNodeDNew : BTNode :=
  BTNode.mk "Sequence" .control "Sequence" [] [movedActionNew] 0 "Sequence"

/-!
Lemmas and claim theorems.
-/

theorem mem_dedupAux {l seen : List String} {x : String} :
    x ∈ dedupAux l seen ↔ x ∈ l ∧ x ∉ seen := by
  induction l generalizing seen with
  | nil => simp [dedupAux]
  | cons y ys ih =>
    by_cases hy : y ∈ seen
    · rw [dedupAux, if_pos hy, ih]
      constructor
      · rintro ⟨h1, h2⟩; exact ⟨List.mem_cons_of_mem _ h1, h2⟩
      · rintro ⟨h1, h2⟩
        rcases List.mem_cons.mp h1 with rfl | h1
        · exact absurd hy h2
        · exact ⟨h1, h2⟩
    · rw [dedupAux, if_neg hy, List.mem_cons, ih]
      constructor
      · rintro (rfl | ⟨h1, h2⟩)
        · exact ⟨List.mem_cons_self _ _, hy⟩
        · exact ⟨List.mem_cons_of_mem _ h1, fun hs => h2 (List.mem_cons_of_mem _ hs)⟩
      · rintro ⟨h1, h2⟩
        rcases List.mem_cons.mp h1 with rfl | h1
        · exact Or.inl rfl
        · by_cases hxy : x = y
          · exact Or.inl hxy
          · refine Or.inr ⟨h1, fun hs => ?_⟩
            rcases List.mem_cons.mp hs with rfl | hs
            · exact hxy rfl
            · exact h2 hs

theorem nodup_dedupAux (l : List String) (seen : List String) :
    (dedupAux l seen).Nodup := by
  induction l generalizing seen with
  | nil => simp [dedupAux]
  | cons y ys ih =>
    by_cases hy : y ∈ seen
    · simpa [dedupAux, if_pos hy] using ih seen
    · rw [dedupAux, if_neg hy]
      refine List.Nodup.cons (fun hmem => ?_) (ih (y :: seen))
      exact (mem_dedupAux.mp hmem).2 (List.mem_cons_self _ _)

theorem mem_pySetUnion {xs ys : List String} {p : String} :
    p ∈ pySetUnion xs ys ↔ p ∈ xs ∨ p ∈ ys := by
  simp [pySetUnion, mem_dedupAux]

theorem nodup_pySetUnion (xs ys : List String) : (pySetUnion xs ys).Nodup :=
  nodup_dedupAux _ _

theorem dedupAux_eq_nil {l seen : List String} (h : ∀ x ∈ l, x ∈ seen) :
    dedupAux l seen = [] := by
  induction l with
  | nil => rfl
  | cons y ys ih =>
    rw [dedupAux, if_pos (h y (List.mem_cons_self _ _))]
    exact ih fun x hx => h x (List.mem_cons_of_mem _ hx)

theorem dedupAux_append_of_subset {xs ys seen : List String}
    (h : ∀ y ∈ ys, y ∈ xs ∨ y ∈ seen) :
    dedupAux (xs ++ ys) seen = dedupAux xs seen := by
  induction xs generalizing seen with
  | nil =>
    simp only [List.nil_append, dedupAux]
    exact dedupAux_eq_nil fun y hy => (h y hy).resolve_left (List.not_mem_nil y)
  | cons x xs ih =>
    by_cases hx : x ∈ seen
    · simp only [List.cons_append, dedupAux, if_pos hx]
      refine ih fun y hy => ?_
      rcases h y hy with hy' | hy'
      · rcases List.mem_cons.mp hy' with rfl | hy''
        · exact Or.inr hx
        · exact Or.inl hy''
      · exact Or.inr hy'
    · simp only [List.cons_append, dedupAux, if_neg hx]
      congr 1
      refine ih fun y hy => ?_
      rcases h y hy with hy' | hy'
      · rcases List.mem_cons.mp hy' with rfl | hy''
        · exact Or.inr (List.mem_cons_self _ _)
        · exact Or.inl hy''
      · exact Or.inr (List.mem_cons_of_mem _ hy')

theorem dedupAux_of_nodup {l seen : List String} (h : l.Nodup)
    (h2 : ∀ x ∈ l, x ∉ seen) : dedupAux l seen = l := by
  induction l generalizing seen with
  | nil => rfl
  | cons x xs ih =>
    rw [dedupAux, if_neg (h2 x (List.mem_cons_self _ _))]
    congr 1
    refine ih (List.Nodup.of_cons h) fun y hy hmem => ?_
    rcases List.mem_cons.mp hmem with rfl | hmem'
    · exact (List.nodup_cons.mp h).1 hy
    · exact h2 y (List.mem_cons_of_mem _ hy) hmem'

theorem pySetUnion_self {xs : List String} (h : xs.Nodup) : pySetUnion xs xs = xs := by
  rw [pySetUnion, dedupAux_append_of_subset (fun y hy => Or.inl hy)]
  exact dedupAux_of_nodup h fun x _ => List.not_mem_nil x

theorem lookupNode_eq_some {m : List (String × BTNode)} {p : String} {n : BTNode}
    (h : lookupNode m p = some n) : (p, n) ∈ m := by
  rw [lookupNode] at h
  rcases Option.map_eq_some'.mp h with ⟨kv, hfind, hsnd⟩
  have hmem := List.mem_of_find?_eq_some hfind
  have hpred := List.find?_some hfind
  have hfst : kv.1 = p := by simpa using hpred
  have : kv = (p, n) := by
    cases kv; simp only at hfst hsnd; simp [hfst, hsnd]
  exact this ▸ hmem

theorem lookupNode_eq_none {m : List (String × BTNode)} {p : String} :
    lookupNode m p = none ↔ p ∉ m.map Prod.fst := by
  rw [lookupNode, Option.map_eq_none', List.find?_eq_none]
  constructor
  · intro h hp
    rcases List.mem_map.mp hp with ⟨kv, hkv, hfst⟩
    exact h kv hkv (by simp [hfst])
  · intro h kv hkv hpred
    refine h (List.mem_map.mpr ⟨kv, hkv, ?_⟩)
    simpa using hpred

theorem lookupNode_isSome_of_mem_keys {m : List (String × BTNode)} {p : String}
    (h : p ∈ m.map Prod.fst) : ∃ n, lookupNode m p = some n := by
  rcases ho : lookupNode m p with _ | n
  · exact absurd (lookupNode_eq_none.mp ho) (by simpa using h)
  · exact ⟨n, rfl⟩

theorem find?_cons_neg {α : Type} (pred : α → Bool) (a : α) (l : List α)
    (h : pred a = false) : (a :: l).find? pred = l.find? pred := by
  rw [List.find?_cons, h]

theorem lookupNode_of_mem_nodup {m : List (String × BTNode)} {p : String} {n : BTNode}
    (hnd : (m.map Prod.fst).Nodup) (h : (p, n) ∈ m) : lookupNode m p = some n := by
  induction m with
  | nil => cases h
  | cons kv m ih =>
    rcases List.mem_cons.mp h with rfl | hmem
    · simp [lookupNode, List.find?_cons_of_pos]
    · have hne : kv.1 ≠ p := by
        intro he
        have : p ∈ m.map Prod.fst := List.mem_map.mpr ⟨(p, n), hmem, rfl⟩
        rw [List.map_cons, List.nodup_cons] at hnd
        exact hnd.1 (he ▸ this)
      have hpred : (kv.1 == p) = false := by simpa using hne
      rw [lookupNode, find?_cons_neg (fun kv : String × BTNode => kv.1 == p) kv m hpred]
      rw [List.map_cons, List.nodup_cons] at hnd
      exact ih hnd.2 hmem

theorem mem_assoc_unique {m : List (String × BTNode)} {p : String} {a b : BTNode}
    (hnd : (m.map Prod.fst).Nodup) (ha : (p, a) ∈ m) (hb : (p, b) ∈ m) : a = b := by
  have h1 := lookupNode_of_mem_nodup hnd ha
  have h2 := lookupNode_of_mem_nodup hnd hb
  rw [h1] at h2
  exact Option.some.inj h2

mutual

theorem flattenNode_fst_eq_path : ∀ (t : BTNode), ∀ pn ∈ flattenNode t, pn.1 = pn.2.path
  | .mk i k tg a cs d p => by
    intro pn h
    rw [flattenNode] at h
    rcases List.mem_cons.mp h with rfl | h
    · rfl
    · exact flattenList_fst_eq_path cs pn h

theorem flattenList_fst_eq_path : ∀ (ts : List BTNode), ∀ pn ∈ flattenList ts, pn.1 = pn.2.path
  | [] => by intro pn h; rw [flattenList] at h; cases h
  | c :: cs => by
    intro pn h
    rw [flattenList] at h
    rcases List.mem_append.mp h with h | h
    · exact flattenNode_fst_eq_path c pn h
    · exact flattenList_fst_eq_path cs pn h

end

theorem compare_nodes_old_path (o n : BTNode) (p : String) :
    (compare_nodes o n p).old_path = some p := by
  rw [compare_nodes]
  by_cases h : basicChanges o n ≠ [] ∨ attrChanges o n ≠ []
  · rw [if_pos h]
  · rw [if_neg h]

theorem compare_nodes_new_path (o n : BTNode) (p : String) :
    (compare_nodes o n p).new_path = some p := by
  rw [compare_nodes]
  by_cases h : basicChanges o n ≠ [] ∨ attrChanges o n ≠ []
  · rw [if_pos h]
  · rw [if_neg h]

theorem compare_nodes_nodes (o n : BTNode) (p : String) :
    (compare_nodes o n p).old_node = some o ∧ (compare_nodes o n p).new_node = some n := by
  rw [compare_nodes]
  by_cases h : basicChanges o n ≠ [] ∨ attrChanges o n ≠ []
  · rw [if_pos h]; exact ⟨rfl, rfl⟩
  · rw [if_neg h]; exact ⟨rfl, rfl⟩

theorem compare_nodes_type (o n : BTNode) (p : String) :
    (compare_nodes o n p).change_type = ChangeType.modified ∨
      (compare_nodes o n p).change_type = ChangeType.unchanged := by
  rw [compare_nodes]
  by_cases h : basicChanges o n ≠ [] ∨ attrChanges o n ≠ []
  · rw [if_pos h]; exact Or.inl rfl
  · rw [if_neg h]; exact Or.inr rfl

theorem basicChanges_ne_nil_iff (o n : BTNode) :
    basicChanges o n ≠ [] ↔ (o.tag ≠ n.tag ∨ o.node_type ≠ n.node_type) := by
  rw [basicChanges]
  by_cases hp : o.tag ≠ n.tag <;> by_cases hq : o.node_type ≠ n.node_type <;>
    simp [hp, hq]

theorem attrChanges_ne_nil_iff (o n : BTNode) :
    attrChanges o n ≠ [] ↔
      ∃ a ∈ pySetUnion (o.attributes.map Prod.fst) (n.attributes.map Prod.fst),
        dictGet o.attributes a "" ≠ dictGet n.attributes a "" := by
  rw [attrChanges]
  constructor
  · intro h
    rcases List.exists_mem_of_ne_nil _ h with ⟨b, hb⟩
    rcases List.mem_filterMap.mp hb with ⟨a, ha, hfa⟩
    refine ⟨a, ha, ?_⟩
    intro heq
    simp only [heq] at hfa
    rw [if_neg (fun hx => hx rfl)] at hfa
    cases hfa
  · rintro ⟨a, ha, hne⟩
    refine List.ne_nil_of_mem (a := (a, (dictGet o.attributes a "", dictGet n.attributes a "")))
      (List.mem_filterMap.mpr ⟨a, ha, ?_⟩)
    simp only
    rw [if_pos hne]

theorem mem_attrChanges (o n : BTNode) (a x y : String) :
    (a, (x, y)) ∈ attrChanges o n ↔
      (a ∈ pySetUnion (o.attributes.map Prod.fst) (n.attributes.map Prod.fst) ∧
        x = dictGet o.attributes a "" ∧ y = dictGet n.attributes a "" ∧ x ≠ y) := by
  rw [attrChanges]
  constructor
  · intro h
    rcases List.mem_filterMap.mp h with ⟨a', ha', hfa⟩
    simp only at hfa
    by_cases hne : dictGet o.attributes a' "" ≠ dictGet n.attributes a' ""
    · rw [if_pos hne] at hfa
      have hfa' := Option.some.inj hfa
      have h1 : a' = a := congrArg Prod.fst hfa'
      have h2 : dictGet o.attributes a' "" = x := congrArg (fun z => z.2.1) hfa'
      have h3 : dictGet n.attributes a' "" = y := congrArg (fun z => z.2.2) hfa'
      subst h1
      exact ⟨ha', h2.symm, h3.symm, fun hxy => hne (by rw [h2, h3, hxy])⟩
    · rw [if_neg hne] at hfa
      cases hfa
  · rintro ⟨ha, rfl, rfl, hne⟩
    refine List.mem_filterMap.mpr ⟨a, ha, ?_⟩
    simp only
    rw [if_pos hne]

theorem compare_nodes_modified_iff (o n : BTNode) (p : String) :
    (compare_nodes o n p).change_type = ChangeType.modified ↔ nodesDiffer o n := by
  rw [compare_nodes, nodesDiffer]
  by_cases h : basicChanges o n ≠ [] ∨ attrChanges o n ≠ []
  · rw [if_pos h]
    refine iff_of_true rfl ?_
    rcases h with hc | ha
    · rcases (basicChanges_ne_nil_iff o n).mp hc with ht | hk
      · exact Or.inl ht
      · exact Or.inr (Or.inl hk)
    · exact Or.inr (Or.inr ((attrChanges_ne_nil_iff o n).mp ha))
  · rw [if_neg h]
    refine iff_of_false (fun he => ChangeType.noConfusion he) ?_
    intro hd
    apply h
    rcases hd with ht | hk | ha
    · exact Or.inl ((basicChanges_ne_nil_iff o n).mpr (Or.inl ht))
    · exact Or.inl ((basicChanges_ne_nil_iff o n).mpr (Or.inr hk))
    · exact Or.inr ((attrChanges_ne_nil_iff o n).mpr ha)

theorem compare_nodes_unchanged_iff (o n : BTNode) (p : String) :
    (compare_nodes o n p).change_type = ChangeType.unchanged ↔ ¬ nodesDiffer o n := by
  rcases compare_nodes_type o n p with h | h
  · rw [h]
    have hd := (compare_nodes_modified_iff o n p).mp h
    exact iff_of_false (fun he => ChangeType.noConfusion he) (not_not_intro hd)
  · rw [h]
    refine iff_of_true rfl ?_
    intro hd
    have := (compare_nodes_modified_iff o n p).mpr hd
    rw [h] at this
    exact ChangeType.noConfusion this

theorem compare_nodes_attr_changes (o n : BTNode) (p : String) :
    (compare_nodes o n p).attribute_changes = attrChanges o n ∨
      ((compare_nodes o n p).attribute_changes = [] ∧ attrChanges o n = []) := by
  rw [compare_nodes]
  by_cases h : basicChanges o n ≠ [] ∨ attrChanges o n ≠ []
  · rw [if_pos h]; exact Or.inl rfl
  · rw [if_neg h]
    push_neg at h
    exact Or.inr ⟨rfl, h.2⟩

theorem nodup_keys_filterMap {l : List String} (hl : l.Nodup)
    (f : String → Option (String × (String × String)))
    (hf : ∀ a b, f a = some b → b.1 = a) :
    ((l.filterMap f).map Prod.fst).Nodup := by
  induction l with
  | nil => simp
  | cons a l ih =>
    rw [List.filterMap_cons]
    rcases hfa : f a with _ | b
    · exact ih (List.Nodup.of_cons hl)
    · rw [List.map_cons]
      refine List.Nodup.cons ?_ (ih (List.Nodup.of_cons hl))
      intro hmem
      rcases List.mem_map.mp hmem with ⟨c, hc, hcfst⟩
      rcases List.mem_filterMap.mp hc with ⟨a', ha', hfa'⟩
      have : a' = a := by
        rw [← hf a' c hfa', hcfst, hf a b hfa]
      exact (List.nodup_cons.mp hl).1 (this ▸ ha')

theorem attrChanges_keys_nodup (o n : BTNode) :
    ((attrChanges o n).map Prod.fst).Nodup := by
  rw [attrChanges]
  refine nodup_keys_filterMap (nodup_pySetUnion _ _) _ ?_
  intro a b hab
  simp only at hab
  by_cases hne : dictGet o.attributes a "" ≠ dictGet n.attributes a ""
  · rw [if_pos hne] at hab
    exact (congrArg Prod.fst (Option.some.inj hab)).symm
  · rw [if_neg hne] at hab
    cases hab

theorem compare_nodes_attr_keys_nodup (o n : BTNode) (p : String) :
    (((compare_nodes o n p).attribute_changes).map Prod.fst).Nodup := by
  rcases compare_nodes_attr_changes o n p with h | ⟨h1, _⟩
  · rw [h]; exact attrChanges_keys_nodup o n
  · rw [h1]; simp

theorem compare_nodes_attr_mem (o n : BTNode) (p : String) (a x y : String) :
    (a, (x, y)) ∈ (compare_nodes o n p).attribute_changes ↔
      (a ∈ pySetUnion (o.attributes.map Prod.fst) (n.attributes.map Prod.fst) ∧
        x = dictGet o.attributes a "" ∧ y = dictGet n.attributes a "" ∧ x ≠ y) := by
  rcases compare_nodes_attr_changes o n p with h | ⟨h1, h2⟩
  · rw [h]; exact mem_attrChanges o n a x y
  · rw [h1]
    refine iff_of_false (List.not_mem_nil _) ?_
    intro hx
    exact absurd ((mem_attrChanges o n a x y).mpr hx) (by rw [h2]; exact List.not_mem_nil _)

theorem mem_classifyPath_cases {oN nN : List (String × BTNode)} {q : String} {c : NodeChange}
    (h : c ∈ classifyPath oN nN q) :
    (∃ o n, lookupNode oN q = some o ∧ lookupNode nN q = some n ∧ c = compare_nodes o n q) ∨
    (∃ o, lookupNode oN q = some o ∧ lookupNode nN q = none ∧
      c = ⟨ChangeType.removed, some o, none, some q, none, []⟩) ∨
    (∃ n, lookupNode oN q = none ∧ lookupNode nN q = some n ∧
      c = ⟨ChangeType.added, none, some n, none, some q, []⟩) := by
  rw [classifyPath] at h
  split at h
  · rename_i o n ho hn
    have := List.mem_singleton.mp h
    subst this
    exact Or.inl ⟨o, n, ho, hn, rfl⟩
  · rename_i o ho hn
    have := List.mem_singleton.mp h
    subst this
    exact Or.inr (Or.inl ⟨o, ho, hn, rfl⟩)
  · rename_i n ho hn
    have := List.mem_singleton.mp h
    subst this
    exact Or.inr (Or.inr ⟨n, ho, hn, rfl⟩)
  · cases h

theorem mentionsPath_eq_true_iff {c : NodeChange} {p : String} :
    mentionsPath c p = true ↔ (c.old_path = some p ∨ c.new_path = some p) := by
  rw [mentionsPath, Bool.or_eq_true]
  constructor
  · rintro (h | h)
    · exact Or.inl (eq_of_beq h)
    · exact Or.inr (eq_of_beq h)
  · rintro (h | h)
    · exact Or.inl (beq_iff_eq.mpr h)
    · exact Or.inr (beq_iff_eq.mpr h)

theorem classifyPath_mentions {oN nN : List (String × BTNode)} {q : String} {c : NodeChange}
    (h : c ∈ classifyPath oN nN q) (p : String) :
    mentionsPath c p = true ↔ p = q := by
  rw [mentionsPath_eq_true_iff]
  rcases mem_classifyPath_cases h with ⟨o, n, _, _, rfl⟩ | ⟨o, _, _, rfl⟩ | ⟨n, _, _, rfl⟩
  · rw [compare_nodes_old_path, compare_nodes_new_path]
    constructor
    · rintro (hx | hx) <;> exact (Option.some.inj hx).symm
    · rintro rfl; exact Or.inl rfl
  · constructor
    · rintro (hx | hx)
      · exact (Option.some.inj hx).symm
      · cases hx
    · rintro rfl; exact Or.inl rfl
  · constructor
    · rintro (hx | hx)
      · cases hx
      · exact (Option.some.inj hx).symm
    · rintro rfl; exact Or.inr rfl

theorem classifyPath_not_moved {oN nN : List (String × BTNode)} {q : String} {c : NodeChange}
    (h : c ∈ classifyPath oN nN q) : c.change_type ≠ ChangeType.moved := by
  rcases mem_classifyPath_cases h with ⟨o, n, _, _, rfl⟩ | ⟨o, _, _, rfl⟩ | ⟨n, _, _, rfl⟩
  · rcases compare_nodes_type o n q with ht | ht <;> rw [ht] <;> intro hx <;> cases hx
  · intro hx; cases hx
  · intro hx; cases hx

theorem classifyPath_length_le (oN nN : List (String × BTNode)) (q : String) :
    (classifyPath oN nN q).length ≤ 1 := by
  rw [classifyPath]
  split <;> simp

theorem classifyPath_ne_nil {oN nN : List (String × BTNode)} {q : String}
    (h : q ∈ oN.map Prod.fst ∨ q ∈ nN.map Prod.fst) : classifyPath oN nN q ≠ [] := by
  rw [classifyPath]
  split
  · intro hx; cases hx
  · intro hx; cases hx
  · intro hx; cases hx
  · rename_i ho hn
    rcases h with h | h
    · rcases lookupNode_isSome_of_mem_keys h with ⟨v, hv⟩
      rw [ho] at hv; cases hv
    · rcases lookupNode_isSome_of_mem_keys h with ⟨v, hv⟩
      rw [hn] at hv; cases hv

theorem keepAfterMove_of_moved {a b : String} {c : NodeChange}
    (h : c.change_type = ChangeType.moved) : keepAfterMove a b c = true := by
  rw [keepAfterMove, h]
  rfl

theorem stepKeep_of_moved {oN nN : List (String × BTNode)} {s : String} {c : NodeChange}
    (h : c.change_type = ChangeType.moved) : stepKeep oN nN s c = true := by
  rw [stepKeep]
  rcases hmo : moveOf oN nN s with _ | m
  · rfl
  · exact keepAfterMove_of_moved h

theorem survivesAll_of_moved {oN nN : List (String × BTNode)} {sigs : List String}
    {c : NodeChange} (h : c.change_type = ChangeType.moved) : survivesAll oN nN sigs c = true := by
  rw [survivesAll, List.all_eq_true]
  intro s _
  exact stepKeep_of_moved h

theorem foldl_detectStep_eq (oN nN : List (String × BTNode)) :
    ∀ (sigs : List String) (changes : List NodeChange),
      sigs.foldl (detectStep oN nN) changes =
        changes.filter (survivesAll oN nN sigs) ++ movedChangesOf oN nN sigs := by
  intro sigs
  induction sigs with
  | nil =>
    intro changes
    rw [List.foldl_nil, movedChangesOf, List.filterMap_nil, List.append_nil]
    symm
    apply List.filter_eq_self.mpr
    intro c _
    rfl
  | cons s sigs ih =>
    intro changes
    rw [List.foldl_cons, ih]
    rcases hmo : moveOf oN nN s with _ | m
    · have hstep : detectStep oN nN changes s = changes := by
        rw [detectStep, hmo]
      rw [hstep]
      have h2 : movedChangesOf oN nN (s :: sigs) = movedChangesOf oN nN sigs := by
        rw [movedChangesOf, List.filterMap_cons, hmo]
        rfl
      have h3 : List.filter (survivesAll oN nN (s :: sigs)) changes =
          List.filter (survivesAll oN nN sigs) changes := by
        apply List.filter_congr
        intro c _
        have hs : survivesAll oN nN (s :: sigs) c =
            (stepKeep oN nN s c && survivesAll oN nN sigs c) := rfl
        have hk : stepKeep oN nN s c = true := by
          rw [stepKeep, hmo]
        rw [hs, hk, Bool.true_and]
      rw [h2, h3]
    · obtain ⟨op, onode, np, nnode⟩ := m
      have hstep : detectStep oN nN changes s =
          (changes.filter (keepAfterMove op np)) ++ [mkMoved op onode np nnode] := by
        rw [detectStep, hmo]
      rw [hstep]
      have hmk : List.filter (survivesAll oN nN sigs) [mkMoved op onode np nnode] =
          [mkMoved op onode np nnode] := by
        rw [List.filter_cons, survivesAll_of_moved rfl]
        rfl
      have h2 : movedChangesOf oN nN (s :: sigs) =
          mkMoved op onode np nnode :: movedChangesOf oN nN sigs := by
        rw [movedChangesOf, List.filterMap_cons, hmo]
        rfl
      have h3 : List.filter (survivesAll oN nN (s :: sigs)) changes =
          List.filter (fun c => survivesAll oN nN sigs c && keepAfterMove op np c) changes := by
        apply List.filter_congr
        intro c _
        have hs : survivesAll oN nN (s :: sigs) c =
            (stepKeep oN nN s c && survivesAll oN nN sigs c) := rfl
        have hk : stepKeep oN nN s c = keepAfterMove op np c := by
          rw [stepKeep, hmo]
        rw [hs, hk, Bool.and_comm]
      rw [List.filter_append, hmk, List.filter_filter, h2, h3, List.append_assoc]
      rfl

theorem detect_moved_nodes_eq (oN nN : List (String × BTNode)) (changes : List NodeChange) :
    detect_moved_nodes oN nN changes =
      changes.filter (survivesAll oN nN (oldSigKeys oN)) ++
        movedChangesOf oN nN (oldSigKeys oN) :=
  foldl_detectStep_eq oN nN (oldSigKeys oN) changes

theorem compare_trees_eq (o n : BTNode) :
    compare_trees o n =
      ((pySetUnion ((flattenNode o).map Prod.fst) ((flattenNode n).map Prod.fst)).flatMap
          (classifyPath (flattenNode o) (flattenNode n))).filter
        (survivesAll (flattenNode o) (flattenNode n) (oldSigKeys (flattenNode o))) ++
      movedChangesOf (flattenNode o) (flattenNode n) (oldSigKeys (flattenNode o)) := by
  rw [compare_trees]
  exact detect_moved_nodes_eq _ _ _

theorem sigInstances_mem {nodes : List (String × BTNode)} {sig : String} {pn : String × BTNode}
    (h : pn ∈ sigInstances nodes sig) : pn ∈ nodes ∧ node_signature pn.2 = sig := by
  rw [sigInstances] at h
  have := List.mem_filter.mp h
  exact ⟨this.1, by simpa using this.2⟩

theorem mem_sigInstances_of {nodes : List (String × BTNode)} {pn : String × BTNode}
    (h : pn ∈ nodes) : pn ∈ sigInstances nodes (node_signature pn.2) := by
  rw [sigInstances]
  exact List.mem_filter.mpr ⟨h, by simp⟩

theorem mem_oldSigKeys {nodes : List (String × BTNode)} {pn : String × BTNode}
    (h : pn ∈ nodes) : node_signature pn.2 ∈ oldSigKeys nodes := by
  rw [oldSigKeys]
  exact mem_dedupAux.mpr ⟨List.mem_map.mpr ⟨pn, h, rfl⟩, List.not_mem_nil _⟩

theorem moveOf_eq_some {oN nN : List (String × BTNode)} {s : String}
    {m : String × BTNode × String × BTNode} (h : moveOf oN nN s = some m) :
    sigInstances oN s = [(m.1, m.2.1)] ∧ sigInstances nN s = [(m.2.2.1, m.2.2.2)] ∧
      m.1 ≠ m.2.2.1 := by
  rw [moveOf] at h
  split at h
  · rename_i op onode np nnode ho hn
    split at h
    · rename_i hne
      have := Option.some.inj h
      subst this
      exact ⟨ho, hn, hne⟩
    · cases h
  · cases h

theorem mem_movedChangesOf {oN nN : List (String × BTNode)} {sigs : List String}
    {c : NodeChange} (h : c ∈ movedChangesOf oN nN sigs) :
    ∃ s ∈ sigs, ∃ m, moveOf oN nN s = some m ∧ c = mkMoved m.1 m.2.1 m.2.2.1 m.2.2.2 := by
  rw [movedChangesOf] at h
  rcases List.mem_filterMap.mp h with ⟨s, hs, hmap⟩
  rcases Option.map_eq_some'.mp hmap with ⟨m, hm, hc⟩
  exact ⟨s, hs, m, hm, hc.symm⟩

theorem keepAfterMove_eq_false {a b : String} {c : NodeChange}
    (h : keepAfterMove a b c = false) :
    (c.change_type = ChangeType.removed ∧ c.old_path = some a) ∨
    (c.change_type = ChangeType.added ∧ c.new_path = some b) := by
  rw [keepAfterMove] at h
  simp only [Bool.not_eq_false', Bool.or_eq_true, Bool.and_eq_true, decide_eq_true_eq,
    beq_iff_eq] at h
  exact h

theorem basicChanges_self (n : BTNode) : basicChanges n n = [] := by
  rw [basicChanges, if_neg (fun h => h rfl), if_neg (fun h => h rfl)]
  rfl

theorem attrChanges_self (n : BTNode) : attrChanges n n = [] := by
  rw [attrChanges, List.filterMap_eq_nil]
  intro a _
  exact if_neg (fun h => h rfl)

theorem compare_nodes_self (n : BTNode) (p : String) :
    compare_nodes n n p = unchangedChange n p := by
  rw [compare_nodes, if_neg]
  · rfl
  · push_neg
    exact ⟨basicChanges_self n, attrChanges_self n⟩

theorem flatMap_singleton_eq_map {α β : Type} (l : List α) (f : α → β) :
    l.flatMap (fun x => [f x]) = l.map f := by
  induction l with
  | nil => rfl
  | cons x xs ih => rw [List.flatMap_cons, ih]; rfl

theorem moveOf_self (m : List (String × BTNode)) (s : String) : moveOf m m s = none := by
  rw [moveOf]
  rcases hsi : sigInstances m s with _ | ⟨⟨op, onode⟩, rest⟩
  · rfl
  · rcases rest with _ | ⟨pn2, rest2⟩
    · exact if_neg (fun hne : op ≠ op => hne rfl)
    · rfl

theorem detect_moved_nodes_self (m : List (String × BTNode)) (changes : List NodeChange) :
    detect_moved_nodes m m changes = changes := by
  rw [detect_moved_nodes]
  generalize oldSigKeys m = sigs
  induction sigs generalizing changes with
  | nil => rfl
  | cons s ss ih =>
    rw [List.foldl_cons]
    have hstep : detectStep m m changes s = changes := by
      rw [detectStep, moveOf_self]
    rw [hstep]
    exact ih changes

theorem compare_trees_self (T : BTNode) (h : ((flattenNode T).map Prod.fst).Nodup) :
    compare_trees T T = (flattenNode T).map (fun pn => unchangedChange pn.2 pn.1) := by
  simp only [compare_trees]
  rw [detect_moved_nodes_self, pySetUnion_self h, List.flatMap_map]
  have hcongr : ∀ pn ∈ flattenNode T,
      classifyPath (flattenNode T) (flattenNode T) pn.1 = [unchangedChange pn.2 pn.1] := by
    intro pn hpn
    have hmem : (pn.1, pn.2) ∈ flattenNode T := by
      rcases pn
      exact hpn
    have hl : lookupNode (flattenNode T) pn.1 = some pn.2 :=
      lookupNode_of_mem_nodup h hmem
    rw [classifyPath, hl]
    show [compare_nodes pn.2 pn.2 pn.1] = [unchangedChange pn.2 pn.1]
    rw [compare_nodes_self]
  rw [List.flatMap_congr hcongr]
  exact flatMap_singleton_eq_map _ _

/-- C5: for every valid tree `T` (paths unique within `T`), `compare(T, T)`
yields exactly the list of Unchanged changes, one per node of `T` carrying
that node and its path on both sides, hence only Unchanged changes, one
per node, and zero Added, Removed, Modified, or Moved changes. -/
theorem claim_C5_identity (T : BTNode) (h : ((flattenNode T).map Prod.fst).Nodup) :
    compare_trees T T = (flattenNode T).map (fun pn => unchangedChange pn.2 pn.1) ∧
    (∀ c ∈ compare_trees T T, c.change_type = ChangeType.unchanged) ∧
    (compare_trees T T).length = (flattenNode T).length := by
  have hmain := compare_trees_self T h
  refine ⟨hmain, ?_, ?_⟩
  · intro c hc
    rw [hmain] at hc
    rcases List.mem_map.mp hc with ⟨pn, _, rfl⟩
    rfl
  · rw [hmain, List.length_map]

/-- Witness for C5 at the Scenario-A tree. -/
theorem claim_C5_identity_witness :
    compare_trees sampleTreeA sampleTreeA =
      (flattenNode sampleTreeA).map (fun pn => unchangedChange pn.2 pn.1) :=
  (claim_C5_identity sampleTreeA (by decide)).1

/-- C10: `compare` is total and deterministic, and depends only on its two
arguments: whatever change list is left in the comparator's state from
earlier invocations, `compare_trees` discards it (`self.changes = []`) and
returns the same freshly computed list. -/
theorem claim_C10_determinism (s1 s2 : List NodeChange) (o n : BTNode) :
    compare_trees_with_state s1 o n = compare_trees_with_state s2 o n ∧
    compare_trees_with_state s1 o n = compare_trees o n :=
  ⟨rfl, rfl⟩

theorem flattenNode_leaf {o : BTNode} (h : o.children = []) :
    flattenNode o = [(o.path, o)] := by
  rcases o with ⟨i, k, t, a, cs, d, p⟩
  simp only [BTNode.children] at h
  subst h
  rw [flattenNode]
  rfl

theorem pySetUnion_singleton_same (p : String) : pySetUnion [p] [p] = [p] := by
  show dedupAux [p, p] [] = [p]
  rw [dedupAux, if_neg (List.not_mem_nil p), dedupAux, if_pos (List.mem_singleton.mpr rfl),
    dedupAux]

theorem pySetUnion_singleton_ne {p q : String} (h : p ≠ q) : pySetUnion [p] [q] = [p, q] := by
  show dedupAux [p, q] [] = [p, q]
  rw [dedupAux, if_neg (List.not_mem_nil p), dedupAux,
    if_neg (fun hm => h (List.mem_singleton.mp hm).symm), dedupAux]

theorem lookupNode_singleton_same (p : String) (x : BTNode) :
    lookupNode [(p, x)] p = some x := by
  rw [lookupNode, List.find?_cons_of_pos]
  · rfl
  · exact beq_self_eq_true p

theorem lookupNode_singleton_ne {p q : String} (h : q ≠ p) (x : BTNode) :
    lookupNode [(q, x)] p = none := by
  rw [lookupNode, find?_cons_neg (fun kv : String × BTNode => kv.1 == p) (q, x) []
    (by simpa using h)]
  rfl

theorem classifyPath_both {oN nN : List (String × BTNode)} {p : String} {o n : BTNode}
    (ho : lookupNode oN p = some o) (hn : lookupNode nN p = some n) :
    classifyPath oN nN p = [compare_nodes o n p] := by
  rw [classifyPath, ho, hn]

theorem classifyPath_removed_eq {oN nN : List (String × BTNode)} {p : String} {o : BTNode}
    (ho : lookupNode oN p = some o) (hn : lookupNode nN p = none) :
    classifyPath oN nN p = [⟨ChangeType.removed, some o, none, some p, none, []⟩] := by
  rw [classifyPath, ho, hn]

theorem classifyPath_added_eq {oN nN : List (String × BTNode)} {p : String} {n : BTNode}
    (ho : lookupNode oN p = none) (hn : lookupNode nN p = some n) :
    classifyPath oN nN p = [⟨ChangeType.added, none, some n, none, some p, []⟩] := by
  rw [classifyPath, ho, hn]

theorem oldSigKeys_singleton (p : String) (x : BTNode) :
    oldSigKeys [(p, x)] = [node_signature x] := by
  rw [oldSigKeys]
  show dedupAux [node_signature x] [] = [node_signature x]
  rw [dedupAux, if_neg (List.not_mem_nil _), dedupAux]

theorem sigInstances_singleton (p : String) (x : BTNode) (s : String) :
    sigInstances [(p, x)] s = if node_signature x = s then [(p, x)] else [] := by
  rw [sigInstances, List.filter_cons]
  by_cases h : node_signature x = s
  · rw [if_pos (by simpa using h), if_pos h]
    rfl
  · rw [if_neg (by simpa using h), if_neg h]
    rfl

theorem compare_trees_leaf_same_path {o n : BTNode} (ho : o.children = []) (hn : n.children = [])
    (hp : o.path = n.path) : compare_trees o n = [compare_nodes o n o.path] := by
  simp only [compare_trees]
  rw [flattenNode_leaf ho, flattenNode_leaf hn, ← hp]
  simp only [List.map_cons, List.map_nil]
  rw [pySetUnion_singleton_same, List.flatMap_cons, List.flatMap_nil, List.append_nil]
  rw [classifyPath_both (lookupNode_singleton_same _ _) (lookupNode_singleton_same _ _)]
  rw [detect_moved_nodes, oldSigKeys_singleton, List.foldl_cons, List.foldl_nil]
  have hmv : moveOf [(o.path, o)] [(o.path, n)] (node_signature o) = none := by
    rw [moveOf, sigInstances_singleton, if_pos rfl, sigInstances_singleton]
    by_cases hs : node_signature n = node_signature o
    · rw [if_pos hs]
      exact if_neg (fun hne : o.path ≠ o.path => hne rfl)
    · rw [if_neg hs]
  rw [detectStep, hmv]

theorem compare_trees_leaf_moved {o n : BTNode} (ho : o.children = []) (hn : n.children = [])
    (hp : o.path ≠ n.path) (hs : node_signature o = node_signature n) :
    compare_trees o n = [mkMoved o.path o n.path n] := by
  simp only [compare_trees]
  rw [flattenNode_leaf ho, flattenNode_leaf hn]
  simp only [List.map_cons, List.map_nil]
  rw [pySetUnion_singleton_ne hp, List.flatMap_cons, List.flatMap_cons, List.flatMap_nil,
    List.append_nil]
  rw [classifyPath_removed_eq (lookupNode_singleton_same _ _)
    (lookupNode_singleton_ne (fun he => hp he.symm) _)]
  rw [classifyPath_added_eq (lookupNode_singleton_ne hp _) (lookupNode_singleton_same _ _)]
  rw [detect_moved_nodes, oldSigKeys_singleton, List.foldl_cons, List.foldl_nil]
  have hmv : moveOf [(o.path, o)] [(n.path, n)] (node_signature o) =
      some (o.path, o, n.path, n) := by
    rw [moveOf, sigInstances_singleton, if_pos rfl, sigInstances_singleton, if_pos hs.symm]
    exact if_pos hp
  rw [detectStep, hmv]
  have hk1 : keepAfterMove o.path n.path
      ⟨ChangeType.removed, some o, none, some o.path, none, []⟩ = false := by
    rw [keepAfterMove]
    simp
  have hk2 : keepAfterMove o.path n.path
      ⟨ChangeType.added, none, some n, none, some n.path, []⟩ = false := by
    rw [keepAfterMove]
    simp
  show List.filter (keepAfterMove o.path n.path)
      [⟨ChangeType.removed, some o, none, some o.path, none, []⟩,
       ⟨ChangeType.added, none, some n, none, some n.path, []⟩] ++
      [mkMoved o.path o n.path n] = [mkMoved o.path o n.path n]
  rw [List.filter_cons, hk1, List.filter_cons, hk2, List.filter_nil]
  rfl

theorem compare_trees_leaf_disjoint {o n : BTNode} (ho : o.children = []) (hn : n.children = [])
    (hp : o.path ≠ n.path) (hs : node_signature o ≠ node_signature n) :
    compare_trees o n =
      [⟨ChangeType.removed, some o, none, some o.path, none, []⟩,
       ⟨ChangeType.added, none, some n, none, some n.path, []⟩] := by
  simp only [compare_trees]
  rw [flattenNode_leaf ho, flattenNode_leaf hn]
  simp only [List.map_cons, List.map_nil]
  rw [pySetUnion_singleton_ne hp, List.flatMap_cons, List.flatMap_cons, List.flatMap_nil,
    List.append_nil]
  rw [classifyPath_removed_eq (lookupNode_singleton_same _ _)
    (lookupNode_singleton_ne (fun he => hp he.symm) _)]
  rw [classifyPath_added_eq (lookupNode_singleton_ne hp _) (lookupNode_singleton_same _ _)]
  rw [detect_moved_nodes, oldSigKeys_singleton, List.foldl_cons, List.foldl_nil]
  have hmv : moveOf [(o.path, o)] [(n.path, n)] (node_signature o) = none := by
    rw [moveOf, sigInstances_singleton, if_pos rfl, sigInstances_singleton,
      if_neg (fun he => hs he.symm)]
  rw [detectStep, hmv]
  rfl

/-- C8 (amended): a root with no children is valid input; comparing two
childless roots yields a change list of size exactly 1 when the two roots
share a path (the root classified by content) or share a signature (the
root classified as Moved); when both the paths and the signatures differ,
the list has exactly two changes: the old root Removed and the new root
Added. -/
theorem claim_C8_empty_trees (o n : BTNode) (ho : o.children = []) (hn : n.children = []) :
    ((o.path = n.path ∨ node_signature o = node_signature n) →
      (compare_trees o n).length = 1) ∧
    ((o.path ≠ n.path ∧ node_signature o ≠ node_signature n) →
      compare_trees o n =
        [⟨ChangeType.removed, some o, none, some o.path, none, []⟩,
         ⟨ChangeType.added, none, some n, none, some n.path, []⟩]) := by
  constructor
  · rintro (hp | hs)
    · rw [compare_trees_leaf_same_path ho hn hp]
      rfl
    · by_cases hp : o.path = n.path
      · rw [compare_trees_leaf_same_path ho hn hp]
        rfl
      · rw [compare_trees_leaf_moved ho hn hp hs]
        rfl
  · rintro ⟨hp, hs⟩
    exact compare_trees_leaf_disjoint ho hn hp hs

/-- Witness for the amended C8: two equal childless roots give one change. -/
theorem claim_C8_empty_trees_witness : (compare_trees leafA leafA).length = 1 :=
  (claim_C8_empty_trees leafA leafA rfl rfl).1 (Or.inl rfl)

/-- Counterexample to C8 as stated: two childless roots are valid input,
yet when the root tags differ the comparison produces a change list of
size 2 (one Removed, one Added), not size 1. -/
theorem claim_C8_counterexample :
    leafA.children = [] ∧ leafB.children = [] ∧
      (compare_trees leafA leafB).length = 2 ∧
      ¬ (compare_trees leafA leafB).length = 1 := by
  exact ⟨rfl, rfl, rfl, by decide⟩

/-- C2 (code bug): parsing `<Sequence><Action/><Action/></Sequence>` gives
both ID-less `Action` children the path `Sequence/Action[0]`.  The sibling
index never advances because a standard `xml.etree` element has no
`getparent` method, so the two paths the claim requires to be distinct
coincide and path uniqueness fails. -/
theorem claim_C2_sibling_index_bug :
    (parse_element (.mk "Sequence" [] [.mk "Action" [] [], .mk "Action" [] []]) none 0).children.map
        BTNode.path = ["Sequence/Action[0]", "Sequence/Action[0]"] ∧
    ¬ ((parse_element (.mk "Sequence" [] [.mk "Action" [] [], .mk "Action" [] []]) none
        0).children.map BTNode.path).Nodup :=
  ⟨rfl, by decide⟩

/-- C6: the signature of a node is `tag(kind):` followed by the
colon-joined `name=value` pairs of exactly the identifying attributes
`ID`, `name`, `sub_tree_name` that are present on the node, in that fixed
order; and the signature is invariant under everything else — any node
with the same tag, same kind and the same presence and values of those
three attributes has the same signature regardless of its other
attributes, children, depth, path or id. -/
theorem claim_C6_signature (node : BTNode) :
    (node_signature node =
      node.tag ++ "(" ++ node.node_type.value ++ "):" ++
        String.intercalate ":" ((["ID", "name", "sub_tree_name"].filter
            (fun a => dictHas node.attributes a)).map
          (fun a => a ++ "=" ++ dictGet node.attributes a ""))) ∧
    (∀ m : BTNode, node.tag = m.tag → node.node_type = m.node_type →
      (∀ a ∈ ["ID", "name", "sub_tree_name"],
        dictHas node.attributes a = dictHas m.attributes a ∧
          dictGet node.attributes a "" = dictGet m.attributes a "") →
      node_signature node = node_signature m) := by
  constructor
  · by_cases h1 : dictHas node.attributes "ID" <;>
      by_cases h2 : dictHas node.attributes "name" <;>
        by_cases h3 : dictHas node.attributes "sub_tree_name" <;>
          simp [node_signature, h1, h2, h3]
  · intro m ht hk hattr
    have hID := hattr "ID" (by simp)
    have hname := hattr "name" (by simp)
    have hsub := hattr "sub_tree_name" (by simp)
    rw [node_signature, node_signature, ht, hk]
    simp only [List.filterMap_cons, List.filterMap_nil]
    rw [hID.1, hID.2, hname.1, hname.2, hsub.1, hsub.2]

/-- Witness for C6: two nodes agreeing on tag, kind and the three
identifying attributes share a signature although their other attributes,
children, depth, path and id all differ. -/
theorem claim_C6_signature_witness :
    node_signature (BTNode.mk "x" .action "Act" [("ID", "A"), ("foo", "1")] [] 0 "p") =
      node_signature (BTNode.mk "y" .action "Act" [("ID", "A"), ("bar", "2")] [leafA] 3 "q") :=
  (claim_C6_signature _).2 _ rfl rfl (by decide)

theorem keepAfterMove_of_safe {a b : String} {c : NodeChange}
    (h1 : c.change_type ≠ ChangeType.removed) (h2 : c.change_type ≠ ChangeType.added) :
    keepAfterMove a b c = true := by
  rw [keepAfterMove]
  simp [h1, h2]

theorem survivesAll_of_safe {oN nN : List (String × BTNode)} {sigs : List String}
    {c : NodeChange} (h1 : c.change_type ≠ ChangeType.removed)
    (h2 : c.change_type ≠ ChangeType.added) : survivesAll oN nN sigs c = true := by
  rw [survivesAll, List.all_eq_true]
  intro s _
  rw [stepKeep]
  rcases hmo : moveOf oN nN s with _ | m
  · rfl
  · exact keepAfterMove_of_safe h1 h2

theorem mem_keys_of_lookup {m : List (String × BTNode)} {p : String} {x : BTNode}
    (h : lookupNode m p = some x) : p ∈ m.map Prod.fst :=
  List.mem_map.mpr ⟨(p, x), lookupNode_eq_some h, rfl⟩

/-- A Modified or Unchanged change always survives move detection and so
reaches the final result. -/
theorem compare_nodes_mem_compare_trees {oldR newR : BTNode} {o n : BTNode} {p : String}
    (ho : lookupNode (flattenNode oldR) p = some o)
    (hn : lookupNode (flattenNode newR) p = some n) :
    compare_nodes o n p ∈ compare_trees oldR newR := by
  rw [compare_trees_eq]
  refine List.mem_append_left _ (List.mem_filter.mpr ⟨?_, ?_⟩)
  · refine List.mem_flatMap.mpr ⟨p, ?_, ?_⟩
    · exact mem_pySetUnion.mpr (Or.inl (mem_keys_of_lookup ho))
    · rw [classifyPath_both ho hn]
      exact List.mem_singleton.mpr rfl
  · rcases compare_nodes_type o n p with ht | ht <;>
      exact survivesAll_of_safe (by rw [ht]; intro hx; cases hx) (by rw [ht]; intro hx; cases hx)

/-- C4 (amended): for a path present in both trees, the comparison of the
two nodes reaches the result; it is Modified exactly when the tag, the
kind, or some attribute of the union (absent values defaulting to the
empty string) differs, Unchanged otherwise; its `attribute_changes` holds
one entry per differing-value attribute of the union — an attribute in the
symmetric difference whose present value is the empty string produces no
entry — and no entry for an attribute with equal values, with no duplicate
entries. -/
theorem claim_C4_modified_content (oldR newR o n : BTNode) (p : String)
    (ho : lookupNode (flattenNode oldR) p = some o)
    (hn : lookupNode (flattenNode newR) p = some n) :
    compare_nodes o n p ∈ compare_trees oldR newR ∧
    ((compare_nodes o n p).change_type = ChangeType.modified ↔ nodesDiffer o n) ∧
    ((compare_nodes o n p).change_type = ChangeType.unchanged ↔ ¬ nodesDiffer o n) ∧
    (∀ a x y, (a, (x, y)) ∈ (compare_nodes o n p).attribute_changes ↔
      (a ∈ pySetUnion (o.attributes.map Prod.fst) (n.attributes.map Prod.fst) ∧
        x = dictGet o.attributes a "" ∧ y = dictGet n.attributes a "" ∧ x ≠ y)) ∧
    (((compare_nodes o n p).attribute_changes.map Prod.fst).Nodup) :=
  ⟨compare_nodes_mem_compare_trees ho hn, compare_nodes_modified_iff o n p,
    compare_nodes_unchanged_iff o n p, fun a x y => compare_nodes_attr_mem o n p a x y,
    compare_nodes_attr_keys_nodup o n p⟩

/-- Witness for the amended C4 at the Scenario-C style nodes. -/
theorem claim_C4_modified_content_witness :
    compare_nodes cexC4Old cexC4New "Act" ∈ compare_trees cexC4Old cexC4New ∧
      ((compare_nodes cexC4Old cexC4New "Act").change_type = ChangeType.modified ↔
        nodesDiffer cexC4Old cexC4New) :=
  have h := claim_C4_modified_content cexC4Old cexC4New cexC4Old cexC4New "Act" rfl rfl
  ⟨h.1, h.2.1⟩

/-- Counterexample to C4 as stated: attribute `x` is present only on the
old node (with the empty value), so it lies in the symmetric difference of
the attribute names, yet the Modified change carries no
`attribute_changes` entry for it. -/
theorem claim_C4_counterexample :
    (compare_trees cexC4Old cexC4New).map (fun c => c.attribute_changes) =
        [[("y", ("1", "2"))]] ∧
    (compare_trees cexC4Old cexC4New).map (fun c => c.change_type) = [ChangeType.modified] ∧
    dictHas cexC4Old.attributes "x" = true ∧ dictHas cexC4New.attributes "x" = false ∧
    (∀ e ∈ (compare_nodes cexC4Old cexC4New "Act").attribute_changes, e.1 ≠ "x") :=
  ⟨rfl, rfl, rfl, rfl, by decide⟩

theorem moveOf_of_singletons {oN nN : List (String × BTNode)} {S p1 p2 : String}
    {n1 n2 : BTNode} (hSo : sigInstances oN S = [(p1, n1)])
    (hSn : sigInstances nN S = [(p2, n2)]) (hne : p1 ≠ p2) :
    moveOf oN nN S = some (p1, n1, p2, n2) := by
  rw [moveOf, hSo, hSn]
  exact if_pos hne

theorem keepAfterMove_eq_true {a b : String} {c : NodeChange}
    (h : keepAfterMove a b c = true) :
    ¬ (c.change_type = ChangeType.removed ∧ c.old_path = some a) ∧
    ¬ (c.change_type = ChangeType.added ∧ c.new_path = some b) := by
  rw [keepAfterMove] at h
  simp only [Bool.not_eq_eq_eq_not, Bool.not_true, Bool.or_eq_false_iff,
    Bool.and_eq_false_imp, decide_eq_true_eq, beq_eq_false_iff_ne] at h
  constructor
  · rintro ⟨h1, h2⟩
    exact h.1 h1 h2
  · rintro ⟨h1, h2⟩
    exact h.2 h1 h2

/-- Every change of the final result either survives from presence
classification (and belongs to some path's classification) or is one of
the appended MOVED entries. -/
theorem compare_trees_mem_cases {oldR newR : BTNode} {c : NodeChange}
    (h : c ∈ compare_trees oldR newR) :
    (∃ q ∈ pySetUnion ((flattenNode oldR).map Prod.fst) ((flattenNode newR).map Prod.fst),
      c ∈ classifyPath (flattenNode oldR) (flattenNode newR) q ∧
        survivesAll (flattenNode oldR) (flattenNode newR) (oldSigKeys (flattenNode oldR)) c =
          true) ∨
    c ∈ movedChangesOf (flattenNode oldR) (flattenNode newR) (oldSigKeys (flattenNode oldR)) := by
  rw [compare_trees_eq] at h
  rcases List.mem_append.mp h with h | h
  · rcases List.mem_filter.mp h with ⟨hmem, hsurv⟩
    rcases List.mem_flatMap.mp hmem with ⟨q, hq, hcq⟩
    exact Or.inl ⟨q, hq, hcq, hsurv⟩
  · exact Or.inr h

/-- A MOVED change of the final result is one of the appended MOVED
entries: presence classification itself never emits MOVED. -/
theorem moved_mem_movedChangesOf {oldR newR : BTNode} {c : NodeChange}
    (h : c ∈ compare_trees oldR newR) (hm : c.change_type = ChangeType.moved) :
    c ∈ movedChangesOf (flattenNode oldR) (flattenNode newR)
      (oldSigKeys (flattenNode oldR)) := by
  rcases compare_trees_mem_cases h with ⟨q, _, hcq, _⟩ | h
  · exact absurd hm (classifyPath_not_moved hcq)
  · exact h

theorem move_old_instance {oN nN : List (String × BTNode)} {s : String}
    {m : String × BTNode × String × BTNode} (h : moveOf oN nN s = some m) :
    (m.1, m.2.1) ∈ oN ∧ node_signature m.2.1 = s := by
  have h1 := (moveOf_eq_some h).1
  have : (m.1, m.2.1) ∈ sigInstances oN s := by
    rw [h1]
    exact List.mem_singleton.mpr rfl
  exact sigInstances_mem this

theorem move_new_instance {oN nN : List (String × BTNode)} {s : String}
    {m : String × BTNode × String × BTNode} (h : moveOf oN nN s = some m) :
    (m.2.2.1, m.2.2.2) ∈ nN ∧ node_signature m.2.2.2 = s := by
  have h1 := (moveOf_eq_some h).2.1
  have : (m.2.2.1, m.2.2.2) ∈ sigInstances nN s := by
    rw [h1]
    exact List.mem_singleton.mpr rfl
  exact sigInstances_mem this

theorem moveOf_none_of_collision {oN nN : List (String × BTNode)} {S : String}
    (h : 2 ≤ (sigInstances oN S).length ∨ 2 ≤ (sigInstances nN S).length) :
    moveOf oN nN S = none := by
  rcases hmo : moveOf oN nN S with _ | m
  · rfl
  · exfalso
    have h1 := (moveOf_eq_some hmo).1
    have h2 := (moveOf_eq_some hmo).2.1
    rcases h with h | h
    · rw [h1] at h
      simp at h
    · rw [h2] at h
      simp at h

theorem keepAfterMove_removed_ne {a b p : String} {x y : Option BTNode} {z : Option String}
    {w : List (String × (String × String))} (h : p ≠ a) :
    keepAfterMove a b ⟨ChangeType.removed, x, y, some p, z, w⟩ = true := by
  rw [keepAfterMove]
  simp [h]

theorem keepAfterMove_added_ne {a b p : String} {x y : Option BTNode} {z : Option String}
    {w : List (String × (String × String))} (h : p ≠ b) :
    keepAfterMove a b ⟨ChangeType.added, x, y, z, some p, w⟩ = true := by
  rw [keepAfterMove]
  simp [h]

/-- C1: inside `compare`, for every signature with exactly one old and one
new carrier whose paths differ, the Removed entry at the old path and the
Added entry at the new path are absent from the result and a single Moved
change carrying both nodes and both paths is present; while for every
signature carried by two or more old nodes or two or more new nodes, no
Moved change is emitted for that signature group and the corresponding
Removed/Added entries remain. -/
theorem claim_C1_move_detection (oldR newR : BTNode)
    (hndo : ((flattenNode oldR).map Prod.fst).Nodup)
    (hndn : ((flattenNode newR).map Prod.fst).Nodup) (S : String) :
    (∀ p1 n1 p2 n2,
      sigInstances (flattenNode oldR) S = [(p1, n1)] →
      sigInstances (flattenNode newR) S = [(p2, n2)] → p1 ≠ p2 →
      ((∀ c ∈ compare_trees oldR newR,
          ¬ (c.change_type = ChangeType.removed ∧ c.old_path = some p1) ∧
          ¬ (c.change_type = ChangeType.added ∧ c.new_path = some p2)) ∧
        mkMoved p1 n1 p2 n2 ∈ compare_trees oldR newR ∧
        (∀ c ∈ compare_trees oldR newR, c.change_type = ChangeType.moved →
          (c.old_path = some p1 ∨ c.new_path = some p2) → c = mkMoved p1 n1 p2 n2))) ∧
    ((2 ≤ (sigInstances (flattenNode oldR) S).length ∨
        2 ≤ (sigInstances (flattenNode newR) S).length) →
      ((∀ c ∈ compare_trees oldR newR, c.change_type = ChangeType.moved →
          ∀ x, c.old_node = some x → node_signature x ≠ S) ∧
        (∀ p m, (p, m) ∈ sigInstances (flattenNode oldR) S →
          p ∉ (flattenNode newR).map Prod.fst →
          (⟨ChangeType.removed, some m, none, some p, none, []⟩ : NodeChange) ∈
            compare_trees oldR newR) ∧
        (∀ p m, (p, m) ∈ sigInstances (flattenNode newR) S →
          p ∉ (flattenNode oldR).map Prod.fst →
          (⟨ChangeType.added, none, some m, none, some p, []⟩ : NodeChange) ∈
            compare_trees oldR newR))) := by
  constructor
  · intro p1 n1 p2 n2 hSo hSn hne
    have hp1mem : (p1, n1) ∈ sigInstances (flattenNode oldR) S := by
      rw [hSo]; exact List.mem_singleton.mpr rfl
    have hp2mem : (p2, n2) ∈ sigInstances (flattenNode newR) S := by
      rw [hSn]; exact List.mem_singleton.mpr rfl
    have hn1mem := (sigInstances_mem hp1mem).1
    have hsig1 := (sigInstances_mem hp1mem).2
    have hn2mem := (sigInstances_mem hp2mem).1
    have hsig2 := (sigInstances_mem hp2mem).2
    have hS_mem : S ∈ oldSigKeys (flattenNode oldR) := hsig1 ▸ mem_oldSigKeys hn1mem
    have hmv : moveOf (flattenNode oldR) (flattenNode newR) S = some (p1, n1, p2, n2) :=
      moveOf_of_singletons hSo hSn hne
    refine ⟨?_, ?_, ?_⟩
    · intro c hc
      rcases compare_trees_mem_cases hc with ⟨q, _, hcq, hsurv⟩ | hmoved
      · rw [survivesAll] at hsurv
        have hstep : stepKeep (flattenNode oldR) (flattenNode newR) S c = true :=
          (List.all_eq_true.mp hsurv) S hS_mem
        rw [stepKeep, hmv] at hstep
        exact keepAfterMove_eq_true hstep
      · rcases mem_movedChangesOf hmoved with ⟨s, _, m, hms, rfl⟩
        constructor
        · rintro ⟨h1, _⟩; cases h1
        · rintro ⟨h1, _⟩; cases h1
    · rw [compare_trees_eq]
      refine List.mem_append_right _ ?_
      rw [movedChangesOf]
      refine List.mem_filterMap.mpr ⟨S, hS_mem, ?_⟩
      rw [hmv]
      rfl
    · intro c hc hcm hpq
      rcases mem_movedChangesOf (moved_mem_movedChangesOf hc hcm) with ⟨s, hs, m, hms, rfl⟩
      rcases hpq with hp | hp
      · have hm1 : m.1 = p1 := Option.some.inj hp
        have hold := move_old_instance hms
        have heqn : m.2.1 = n1 := mem_assoc_unique hndo (hm1 ▸ hold.1) hn1mem
        have hsS : s = S := by rw [← hold.2, heqn, hsig1]
        rw [hsS, hmv] at hms
        have hmeq : m = (p1, n1, p2, n2) := (Option.some.inj hms).symm
        subst hmeq
        rfl
      · have hm2 : m.2.2.1 = p2 := Option.some.inj hp
        have hnew := move_new_instance hms
        have heqn : m.2.2.2 = n2 := mem_assoc_unique hndn (hm2 ▸ hnew.1) hn2mem
        have hsS : s = S := by rw [← hnew.2, heqn, hsig2]
        rw [hsS, hmv] at hms
        have hmeq : m = (p1, n1, p2, n2) := (Option.some.inj hms).symm
        subst hmeq
        rfl
  · intro hbig
    have hnone : moveOf (flattenNode oldR) (flattenNode newR) S = none :=
      moveOf_none_of_collision hbig
    refine ⟨?_, ?_, ?_⟩
    · intro c hc hcm x hx hsx
      rcases mem_movedChangesOf (moved_mem_movedChangesOf hc hcm) with ⟨s, hs, m, hms, rfl⟩
      have hx' : x = m.2.1 := (Option.some.inj hx).symm
      have hold := move_old_instance hms
      rw [hx', hold.2] at hsx
      rw [hsx, hnone] at hms
      cases hms
    · intro p m hmem hp
      have hmem' := sigInstances_mem hmem
      have hlo : lookupNode (flattenNode oldR) p = some m := lookupNode_of_mem_nodup hndo hmem'.1
      have hln : lookupNode (flattenNode newR) p = none := lookupNode_eq_none.mpr hp
      rw [compare_trees_eq]
      refine List.mem_append_left _ (List.mem_filter.mpr ⟨?_, ?_⟩)
      · refine List.mem_flatMap.mpr ⟨p, ?_, ?_⟩
        · exact mem_pySetUnion.mpr (Or.inl (List.mem_map.mpr ⟨(p, m), hmem'.1, rfl⟩))
        · rw [classifyPath_removed_eq hlo hln]
          exact List.mem_singleton.mpr rfl
      · rw [survivesAll, List.all_eq_true]
        intro s' _
        rw [stepKeep]
        rcases hmo : moveOf (flattenNode oldR) (flattenNode newR) s' with _ | m'
        · rfl
        · apply keepAfterMove_removed_ne
          intro hpe
          have hold := move_old_instance hmo
          have heqm : m'.2.1 = m := mem_assoc_unique hndo (hpe.symm ▸ hold.1) hmem'.1
          have hs' : s' = S := by rw [← hold.2, heqm, hmem'.2]
          rw [hs', hnone] at hmo
          cases hmo
    · intro p m hmem hp
      have hmem' := sigInstances_mem hmem
      have hln : lookupNode (flattenNode newR) p = some m := lookupNode_of_mem_nodup hndn hmem'.1
      have hlo : lookupNode (flattenNode oldR) p = none := lookupNode_eq_none.mpr hp
      rw [compare_trees_eq]
      refine List.mem_append_left _ (List.mem_filter.mpr ⟨?_, ?_⟩)
      · refine List.mem_flatMap.mpr ⟨p, ?_, ?_⟩
        · exact mem_pySetUnion.mpr (Or.inr (List.mem_map.mpr ⟨(p, m), hmem'.1, rfl⟩))
        · rw [classifyPath_added_eq hlo hln]
          exact List.mem_singleton.mpr rfl
      · rw [survivesAll, List.all_eq_true]
        intro s' _
        rw [stepKeep]
        rcases hmo : moveOf (flattenNode oldR) (flattenNode newR) s' with _ | m'
        · rfl
        · apply keepAfterMove_added_ne
          intro hpe
          have hnew := move_new_instance hmo
          have heqm : m'.2.2.2 = m := mem_assoc_unique hndn (hpe.symm ▸ hnew.1) hmem'.1
          have hs' : s' = S := by rw [← hnew.2, heqm, hmem'.2]
          rw [hs', hnone] at hmo
          cases hmo

/-- Witness for C1 at Scenario D: the re-parented action is reported as a
single Moved change. -/
theorem claim_C1_move_detection_witness :
    mkMoved "Sequence/Fallback[0]/Action[@ID='A']" movedActionOld "Sequence/Action[@ID='A']"
        movedActionNew ∈ compare_trees treeDOld treeDNew :=
  ((claim_C1_move_detection treeDOld treeDNew (by decide) (by decide)
      "Action(action):ID=A").1 "Sequence/Fallback[0]/Action[@ID='A']" movedActionOld
    "Sequence/Action[@ID='A']" movedActionNew rfl rfl (by decide)).2.1

theorem length_filter_mentions_flatMap_le {oN nN : List (String × BTNode)}
    {paths : List String} (hnd : paths.Nodup) (p : String) (pred : NodeChange → Bool)
    (hpred : ∀ c, pred c = true → mentionsPath c p = true) :
    ((paths.flatMap (classifyPath oN nN)).filter pred).length ≤ 1 := by
  induction paths with
  | nil => simp
  | cons q qs ih =>
    rw [List.flatMap_cons, List.filter_append, List.length_append]
    rcases List.nodup_cons.mp hnd with ⟨hq, hnd'⟩
    by_cases hpq : p = q
    · subst hpq
      have h2 : ((qs.flatMap (classifyPath oN nN)).filter pred).length = 0 := by
        rw [List.length_eq_zero, List.filter_eq_nil_iff]
        intro c hc hcp
        rcases List.mem_flatMap.mp hc with ⟨q', hq', hcq'⟩
        have := (classifyPath_mentions hcq' p).mp (hpred c hcp)
        exact hq (this ▸ hq')
      have h1 : ((classifyPath oN nN p).filter pred).length ≤ 1 :=
        le_trans (List.length_filter_le _ _) (classifyPath_length_le oN nN p)
      omega
    · have h1 : ((classifyPath oN nN q).filter pred).length = 0 := by
        rw [List.length_eq_zero, List.filter_eq_nil_iff]
        intro c hc hcp
        exact hpq ((classifyPath_mentions hc p).mp (hpred c hcp))
      have h2 := ih hnd'
      omega

/-- C3 (amended): for valid (internally path-unique) trees, every path in
the union of old-tree paths and new-tree paths appears in at least one
Change of the result — no path is silently dropped — and in at most one
non-Moved Change; but a path occupied in both trees may additionally
appear in a Moved Change, so a path can appear in more than one Change. -/
theorem claim_C3_path_coverage (oldR newR : BTNode)
    (hndo : ((flattenNode oldR).map Prod.fst).Nodup)
    (hndn : ((flattenNode newR).map Prod.fst).Nodup) :
    ∀ p, (p ∈ (flattenNode oldR).map Prod.fst ∨ p ∈ (flattenNode newR).map Prod.fst) →
      (∃ c ∈ compare_trees oldR newR, mentionsPath c p = true) ∧
      ((compare_trees oldR newR).filter
        (fun c => !(decide (c.change_type = ChangeType.moved)) && mentionsPath c p)).length ≤
          1 := by
  intro p hp
  have hpu : p ∈ pySetUnion ((flattenNode oldR).map Prod.fst) ((flattenNode newR).map Prod.fst) :=
    mem_pySetUnion.mpr hp
  constructor
  · rcases List.exists_mem_of_ne_nil _ (classifyPath_ne_nil hp) with ⟨c0, hc0⟩
    have hc0m : mentionsPath c0 p = true := (classifyPath_mentions hc0 p).mpr rfl
    rcases hsurv : survivesAll (flattenNode oldR) (flattenNode newR)
        (oldSigKeys (flattenNode oldR)) c0 with _ | _
    · -- c0 is filtered out: some processed move removed it, and that move mentions p
      rw [survivesAll] at hsurv
      have : ¬ ∀ s ∈ oldSigKeys (flattenNode oldR),
          stepKeep (flattenNode oldR) (flattenNode newR) s c0 = true := by
        intro hall
        rw [List.all_eq_true.mpr hall] at hsurv
        cases hsurv
      simp only [not_forall] at this
      obtain ⟨s, hs, hfalse⟩ := this
      have hsf : stepKeep (flattenNode oldR) (flattenNode newR) s c0 = false := by
        rcases hb : stepKeep (flattenNode oldR) (flattenNode newR) s c0 with _ | _
        · rfl
        · exact absurd hb hfalse
      rw [stepKeep] at hsf
      rcases hmo : moveOf (flattenNode oldR) (flattenNode newR) s with _ | m
      · rw [hmo] at hsf
        cases hsf
      · rw [hmo] at hsf
        have hkf := keepAfterMove_eq_false hsf
        have hmvmem : mkMoved m.1 m.2.1 m.2.2.1 m.2.2.2 ∈ compare_trees oldR newR := by
          rw [compare_trees_eq]
          refine List.mem_append_right _ ?_
          rw [movedChangesOf]
          refine List.mem_filterMap.mpr ⟨s, hs, ?_⟩
          rw [hmo]
          rfl
        refine ⟨mkMoved m.1 m.2.1 m.2.2.1 m.2.2.2, hmvmem, ?_⟩
        rcases hkf with ⟨_, hop⟩ | ⟨_, hnp⟩
        · have hm1 : m.1 = p := by
            have := (classifyPath_mentions hc0 m.1).mp
              (mentionsPath_eq_true_iff.mpr (Or.inl hop))
            exact this
          rw [mentionsPath_eq_true_iff]
          exact Or.inl (by rw [hm1]; rfl)
        · have hm2 : m.2.2.1 = p := by
            have := (classifyPath_mentions hc0 m.2.2.1).mp
              (mentionsPath_eq_true_iff.mpr (Or.inr hnp))
            exact this
          rw [mentionsPath_eq_true_iff]
          exact Or.inr (by rw [hm2]; rfl)
    · -- c0 survives
      refine ⟨c0, ?_, hc0m⟩
      rw [compare_trees_eq]
      refine List.mem_append_left _ (List.mem_filter.mpr ⟨?_, hsurv⟩)
      exact List.mem_flatMap.mpr ⟨p, hpu, hc0⟩
  · rw [compare_trees_eq, List.filter_append, List.length_append]
    have hmoves : ((movedChangesOf (flattenNode oldR) (flattenNode newR)
        (oldSigKeys (flattenNode oldR))).filter
          (fun c => !(decide (c.change_type = ChangeType.moved)) && mentionsPath c p)).length =
        0 := by
      rw [List.length_eq_zero, List.filter_eq_nil_iff]
      intro c hc hcp
      rcases mem_movedChangesOf hc with ⟨s, _, m, _, rfl⟩
      rw [Bool.and_eq_true] at hcp
      simp only [Bool.not_eq_eq_eq_not, Bool.not_true, decide_eq_false_iff_not] at hcp
      exact hcp.1 rfl
    have hcls : (List.filter
        (fun c => !(decide (c.change_type = ChangeType.moved)) && mentionsPath c p)
        (List.filter
          (survivesAll (flattenNode oldR) (flattenNode newR) (oldSigKeys (flattenNode oldR)))
          ((pySetUnion ((flattenNode oldR).map Prod.fst)
              ((flattenNode newR).map Prod.fst)).flatMap
            (classifyPath (flattenNode oldR) (flattenNode newR))))).length ≤ 1 := by
      rw [List.filter_filter]
      refine length_filter_mentions_flatMap_le (nodup_pySetUnion _ _) p _ ?_
      intro c hc
      rw [Bool.and_eq_true, Bool.and_eq_true] at hc
      exact hc.1.2
    omega

/-- Witness for the amended C3 at the Scenario-D trees and the root path. -/
theorem claim_C3_path_coverage_witness :
    (∃ c ∈ compare_trees treeDOld treeDNew, mentionsPath c "Sequence" = true) ∧
    ((compare_trees treeDOld treeDNew).filter
      (fun c => !(decide (c.change_type = ChangeType.moved)) &&
        mentionsPath c "Sequence")).length ≤ 1 :=
  claim_C3_path_coverage treeDOld treeDNew (by decide) (by decide) "Sequence"
    (Or.inl (by decide))

/-- Counterexample to C3 as stated: both trees are internally
path-unique, yet the path `Sequence/Action[@ID='A']` — occupied in both
trees, while the unique signature of its old occupant reappears at a
different path in the new tree — is mentioned by two changes of the
result (its Modified change and the Moved change), so it does not appear
in exactly one Change. -/
theorem claim_C3_counterexample :
    ((flattenNode treeC3Old).map Prod.fst).Nodup ∧
    ((flattenNode treeC3New).map Prod.fst).Nodup ∧
    "Sequence/Action[@ID='A']" ∈ (flattenNode treeC3Old).map Prod.fst ∧
    ((compare_trees treeC3Old treeC3New).filter
        (fun c => mentionsPath c "Sequence/Action[@ID='A']")).length = 2 ∧
    ¬ ((compare_trees treeC3Old treeC3New).filter
        (fun c => mentionsPath c "Sequence/Action[@ID='A']")).length = 1 :=
  ⟨by decide, by decide, by decide, rfl, by decide⟩

theorem append_cons_inj {α : Type} {x : α} :
    ∀ {a c b d : List α}, a ++ x :: b = c ++ x :: d → x ∉ a → x ∉ c → a = c ∧ b = d := by
  intro a
  induction a with
  | nil =>
    intro c b d h ha hc
    cases c with
    | nil =>
      rw [List.nil_append, List.nil_append] at h
      injection h with _ h2
      exact ⟨rfl, h2⟩
    | cons y ys =>
      rw [List.nil_append, List.cons_append] at h
      injection h with h1 _
      exact absurd (h1 ▸ List.mem_cons_self y ys) hc
  | cons y ys ih =>
    intro c b d h ha hc
    cases c with
    | nil =>
      rw [List.nil_append, List.cons_append] at h
      injection h with h1 _
      exact absurd (h1.symm ▸ List.mem_cons_self y ys) ha
    | cons z zs =>
      rw [List.cons_append, List.cons_append] at h
      injection h with h1 h2
      have hys : x ∉ ys := fun hm => ha (List.mem_cons_of_mem _ hm)
      have hzs : x ∉ zs := fun hm => hc (List.mem_cons_of_mem _ hm)
      rcases ih h2 hys hzs with ⟨he1, he2⟩
      exact ⟨by rw [h1, he1], he2⟩

theorem string_data_inj {s u : String} (h : s.data = u.data) : s = u := by
  cases s
  cases u
  simp only at h
  rw [h]

theorem pathTag_unique {p t1 t2 : String} (h1 : PathTag p t1) (h2 : PathTag p t2) :
    t1 = t2 := by
  have of_rev : ∀ {a b : String}, a.data.reverse = b.data.reverse → a = b := by
    intro a b h
    exact string_data_inj (List.reverse_injective h)
  rcases h1 with ⟨hs1, rfl⟩ | ⟨pp1, v1, hv1ne, hv1, hs1, hp1⟩ | ⟨pp1, hs1, hp1⟩
  · rcases h2 with ⟨_, he2⟩ | ⟨pp2, v2, _, _, _, hp2⟩ | ⟨pp2, _, hp2⟩
    · exact he2
    · exact absurd (by rw [hp2]; simp [String.data_append] : ('/' : Char) ∈ p.data) hs1
    · exact absurd (by rw [hp2]; simp [String.data_append] : ('/' : Char) ∈ p.data) hs1
  · rcases h2 with ⟨hs2, he2⟩ | ⟨pp2, v2, hv2ne, hv2, hs2, hp2⟩ | ⟨pp2, hs2, hp2⟩
    · exact absurd (by rw [← he2, hp1]; simp [String.data_append] : '/' ∈ t2.data) hs2
    · have heq := hp1.symm.trans hp2
      have hd := congrArg (fun s : String => s.data.reverse) heq
      simp only [String.data_append, List.reverse_append] at hd
      simp [String.data_append, List.reverse_append] at hd
      have h1' : ('\'' : Char) ∉ v1.data.reverse := fun hm => hv1 (List.mem_reverse.mp hm)
      have h2' : ('\'' : Char) ∉ v2.data.reverse := fun hm => hv2 (List.mem_reverse.mp hm)
      rcases append_cons_inj hd h1' h2' with ⟨_, htail⟩
      injection htail with _ htail
      injection htail with _ htail
      injection htail with _ htail
      injection htail with _ htail
      injection htail with _ htail
      have ht1 : ('/' : Char) ∉ t1.data.reverse := fun hm => hs1 (List.mem_reverse.mp hm)
      have ht2 : ('/' : Char) ∉ t2.data.reverse := fun hm => hs2 (List.mem_reverse.mp hm)
      rcases append_cons_inj htail ht1 ht2 with ⟨hteq, _⟩
      exact of_rev hteq
    · have heq := hp1.symm.trans hp2
      have hd := congrArg (fun s : String => s.data.reverse) heq
      simp [String.data_append, List.reverse_append] at hd
  · rcases h2 with ⟨hs2, he2⟩ | ⟨pp2, v2, hv2ne, hv2, hs2, hp2⟩ | ⟨pp2, hs2, hp2⟩
    · exact absurd (by rw [← he2, hp1]; simp [String.data_append] : '/' ∈ t2.data) hs2
    · have heq := hp1.symm.trans hp2
      have hd := congrArg (fun s : String => s.data.reverse) heq
      simp [String.data_append, List.reverse_append] at hd
    · have heq := hp1.symm.trans hp2
      have hd := congrArg (fun s : String => s.data.reverse) heq
      simp [String.data_append, List.reverse_append] at hd
      have ht1 : ('/' : Char) ∉ t1.data.reverse := fun hm => hs1 (List.mem_reverse.mp hm)
      have ht2 : ('/' : Char) ∉ t2.data.reverse := fun hm => hs2 (List.mem_reverse.mp hm)
      rcases append_cons_inj hd ht1 ht2 with ⟨hteq, _⟩
      exact of_rev hteq

theorem basicChanges_eq_nil_of {o n : BTNode} (ht : o.tag = n.tag)
    (hk : o.node_type = n.node_type) : basicChanges o n = [] := by
  rw [basicChanges, if_neg (fun h => h ht), if_neg (fun h => h hk)]
  rfl

theorem compare_nodes_modified_attr_ne {o n : BTNode} {p : String}
    (hb : basicChanges o n = [])
    (hm : (compare_nodes o n p).change_type = ChangeType.modified) :
    (compare_nodes o n p).attribute_changes ≠ [] := by
  rw [compare_nodes] at hm ⊢
  by_cases h : basicChanges o n ≠ [] ∨ attrChanges o n ≠ []
  · rw [if_pos h] at hm ⊢
    rcases h with h | h
    · exact absurd hb h
    · exact h
  · rw [if_neg h] at hm
    cases hm

/-- C7 (amended): for trees whose node paths follow the parser's
path-generation scheme with apostrophe-free ID values (and whose kinds are
the classification of their tags), an old node and a new node occupying
the same path have equal tag and equal kind, the tag and kind branches of
node comparison are unreachable, and every Modified change of the result
carries a non-empty `attribute_changes` mapping. -/
theorem claim_C7_path_determines_tag (oldR newR : BTNode)
    (Ho : ∀ pn ∈ flattenNode oldR, PathTag pn.1 pn.2.tag ∧
      pn.2.node_type = classify_node pn.2.tag)
    (Hn : ∀ pn ∈ flattenNode newR, PathTag pn.1 pn.2.tag ∧
      pn.2.node_type = classify_node pn.2.tag) :
    (∀ p o n, lookupNode (flattenNode oldR) p = some o →
      lookupNode (flattenNode newR) p = some n →
      o.tag = n.tag ∧ o.node_type = n.node_type ∧ basicChanges o n = []) ∧
    (∀ c ∈ compare_trees oldR newR, c.change_type = ChangeType.modified →
      c.attribute_changes ≠ []) := by
  have hmain : ∀ p o n, lookupNode (flattenNode oldR) p = some o →
      lookupNode (flattenNode newR) p = some n →
      o.tag = n.tag ∧ o.node_type = n.node_type ∧ basicChanges o n = [] := by
    intro p o n ho hn
    have hO := Ho (p, o) (lookupNode_eq_some ho)
    have hN := Hn (p, n) (lookupNode_eq_some hn)
    have ht : o.tag = n.tag := pathTag_unique hO.1 hN.1
    have hk : o.node_type = n.node_type := by rw [hO.2, hN.2, ht]
    exact ⟨ht, hk, basicChanges_eq_nil_of ht hk⟩
  refine ⟨hmain, ?_⟩
  intro c hc hcm
  rcases compare_trees_mem_cases hc with ⟨q, _, hcq, _⟩ | hmoved
  · rcases mem_classifyPath_cases hcq with ⟨o, n, ho, hn, rfl⟩ | ⟨o, _, _, rfl⟩ |
      ⟨n, _, _, rfl⟩
    · exact compare_nodes_modified_attr_ne (hmain q o n ho hn).2.2 hcm
    · cases hcm
    · cases hcm
  · rcases mem_movedChangesOf hmoved with ⟨s, _, m, _, rfl⟩
    cases hcm

/-- Counterexample to C7 as stated: both trees are parser outputs, yet
the path `R/SubTree[@ID='a']/Sequence[@ID='c']` is occupied in the old
tree by a `Sequence` node (kind control) and in the new tree by a
`SubTree` node (kind subtree): equal paths do not force equal tags or
kinds once an ID value contains the apostrophe delimiter. -/
theorem claim_C7_counterexample :
    (lookupNode (flattenNode treeC7Old) "R/SubTree[@ID='a']/Sequence[@ID='c']").map
        BTNode.tag = some "Sequence" ∧
    (lookupNode (flattenNode treeC7New) "R/SubTree[@ID='a']/Sequence[@ID='c']").map
        BTNode.tag = some "SubTree" ∧
    (lookupNode (flattenNode treeC7Old) "R/SubTree[@ID='a']/Sequence[@ID='c']").map
        BTNode.node_type = some NodeType.control ∧
    (lookupNode (flattenNode treeC7New) "R/SubTree[@ID='a']/Sequence[@ID='c']").map
        BTNode.node_type = some NodeType.subtree ∧
    ("Sequence" : String) ≠ "SubTree" ∧ NodeType.control ≠ NodeType.subtree :=
  ⟨rfl, rfl, rfl, rfl, by decide, by decide⟩

/-- Witness for the amended C7 at the Scenario-D trees and the root
path. -/
theorem claim_C7_path_determines_tag_witness :
    rootNodeDOld.tag = rootNodeDNew.tag ∧ rootNodeDOld.node_type = rootNodeDNew.node_type ∧
      basicChanges rootNodeDOld rootNodeDNew = [] := by
  refine (claim_C7_path_determines_tag treeDOld treeDNew ?_ ?_).1 "Sequence" rootNodeDOld
    rootNodeDNew rfl rfl
  · intro pn hpn
    have hfl : flattenNode treeDOld =
        [("Sequence", rootNodeDOld), ("Sequence/Fallback[0]", fbNodeD),
         ("Sequence/Fallback[0]/Action[@ID='A']", movedActionOld)] := rfl
    rw [hfl] at hpn
    simp only [List.mem_cons, List.not_mem_nil, or_false] at hpn
    rcases hpn with rfl | rfl | rfl
    · exact ⟨Or.inl ⟨by decide, rfl⟩, rfl⟩
    · exact ⟨Or.inr (Or.inr ⟨"Sequence", by decide, by decide⟩), rfl⟩
    · exact ⟨Or.inr (Or.inl ⟨"Sequence/Fallback[0]", "A", by decide, by decide, by decide,
        by decide⟩), rfl⟩
  · intro pn hpn
    have hfl : flattenNode treeDNew =
        [("Sequence", rootNodeDNew), ("Sequence/Action[@ID='A']", movedActionNew)] := rfl
    rw [hfl] at hpn
    simp only [List.mem_cons, List.not_mem_nil, or_false] at hpn
    rcases hpn with rfl | rfl
    · exact ⟨Or.inl ⟨by decide, rfl⟩, rfl⟩
    · exact ⟨Or.inr (Or.inl ⟨"Sequence", "A", by decide, by decide, by decide,
        by decide⟩), rfl⟩
